import Mathlib

/-!
# PocketSDR receiver orchestration (`src/sdr_rcv.c`)

A shallow embedding of the receiver functions of `sdr_rcv.c` and theorems about
them.

Modelling conventions.

* `double` fields (`T`, `time`, `fd`, `fc`, `fd_ext`) and the constants `T_CYC`,
  `T_REACQ`, `MIN_LOCK` are rationals: arithmetic is exact.
* `int` / `int64_t` values are unbounded integers; C `%` and `/` are `Int.tmod`
  and `Int.tdiv` (truncation toward zero).
* Complex samples `sdr_cpx_t` (`float[2]`) are pairs of integers: every value
  the decoder stores is an integer of magnitude at most 128, which a `float`
  holds exactly.
* The channel table `rcv->th[0 .. nch-1]` is a list, and `rcv->nch` is its
  length.
* In-place updates through pointers (`ch->acq->fd_ext = ...`,
  `ch->state = ...`) are returned values written back into the table.
* Threads are interleavings of atomic steps: one test of a loop condition, or
  one loop body, at a time. The DSP kernel `sdr_ch_update` is outside this file
  and enters as a parameter (the state it leaves, or the moves it may make).
* The static table `LUT` of `rcv_read_data` is threaded through the calls.
-/

namespace PocketSDR

/-! ## Constants -/

/-- Data read cycle `T_CYC` (s). -/
def T_CYC : ℚ := 1 / 1000

/-- Receiver channel log cycle `LOG_CYC` (in units of `T_CYC`). -/
def LOG_CYC : Int := 1000

/-- Re-acquisition timeout `T_REACQ` (s). -/
def T_REACQ : ℚ := 60

/-- Minimum lock time `MIN_LOCK` (s). -/
def MIN_LOCK : ℚ := 2

/-- Maximum number of IF data buffer cycles `MAX_BUFF`. -/
def MAX_BUFF : Int := 8000

/-! ## Data model -/

/-- Channel states `STATE_IDLE`, `STATE_SRCH`, `STATE_LOCK`. -/
inductive ChState where
  | IDLE
  | SRCH
  | LOCK
  deriving DecidableEq, Repr

/-- IF data formats `SDR_FMT_INT8`, `SDR_FMT_RAW`. -/
inductive Fmt where
  | INT8
  | RAW
  deriving DecidableEq, Repr

/-- The fields of `sdr_ch_t` that the receiver reads or writes
(`fd_ext` is `ch->acq->fd_ext`). -/
structure Ch where
  state : ChState
  sat : String
  T : ℚ
  N : Int
  lock : Int
  time : ℚ
  fd : ℚ
  fc : ℚ
  fd_ext : ℚ
  deriving DecidableEq

/-- Channel thread `sdr_ch_th_t`: the channel, the thread-running flag, the IF
buffer read pointer `ix` and the front-end selector `if_ch`. -/
structure ChTh where
  ch : Ch
  state : Int
  ix : Int
  if_ch : Nat
  deriving DecidableEq

/-- A complex sample `(I, Q)`. -/
abbrev Cpx := Int × Int

/-- Receiver `sdr_rcv_t`. `buff k i` is `rcv->buff[k][i]`; `isStdin` records
whether `rcv->fp == stdin`. -/
structure Rcv where
  state : Int
  ich : Int
  ix : Int
  N : Int
  len_buff : Int
  fmt : Fmt
  IQ0 : Int
  IQ1 : Int
  th : List ChTh
  raw : List Int
  buff : Nat → Int → Cpx
  isStdin : Bool

/-- The channel count `rcv->nch`. -/
def Rcv.nch (rcv : Rcv) : Int := rcv.th.length

/-- State of channel `i` (`rcv->th[i]->ch->state`), if `i` is a channel. -/
def Rcv.chState (rcv : Rcv) (i : Nat) : Option ChState :=
  (rcv.th[i]?).map (fun t => t.ch.state)

/-- Write a channel value back to slot `i` of the channel table. -/
def Rcv.setCh (rcv : Rcv) (i : Nat) (ch : Ch) : Rcv :=
  { rcv with th := rcv.th.modify (fun t => { t with ch := ch }) i }

/-! ## Acquisition scheduler -/

/-- Function `re_acq`: returns the status and the channel after the call. The
second conjunct is the C expression `rcv->ix * T_CYC - ch->time + T_REACQ`
used as a truth value. -/
def re_acq (rcv : Rcv) (ch : Ch) : Int × Ch :=
  if (ch.lock : ℚ) * ch.T ≥ MIN_LOCK ∧ (rcv.ix : ℚ) * T_CYC - ch.time + T_REACQ ≠ 0 then
    (1, { ch with fd_ext := ch.fd })
  else
    (0, ch)

/-- The loop of `assist_acq` over the channel table. -/
def assist_acq_loop (ch : Ch) : List ChTh → Int × Ch
  | [] => (0, ch)
  | t :: rest =>
    if ch.sat ≠ t.ch.sat ∨ t.ch.state ≠ ChState.LOCK ∨
        (t.ch.lock : ℚ) * t.ch.T < MIN_LOCK then
      assist_acq_loop ch rest
    else
      (1, { ch with fd_ext := t.ch.fd * ch.fc / t.ch.fc })

/-- Function `assist_acq`. -/
def assist_acq (rcv : Rcv) (ch : Ch) : Int × Ch :=
  assist_acq_loop ch rcv.th

/-- The condition `re_acq(rcv, ch) || assist_acq(rcv, ch) || ch->T <= 5e-3`
with its short-circuit evaluation: returns whether it holds and the channel
after the calls that were made. -/
def srch_cond (rcv : Rcv) (ch : Ch) : Bool × Ch :=
  let a := re_acq rcv ch
  if a.1 ≠ 0 then (true, a.2)
  else
    let b := assist_acq rcv a.2
    if b.1 ≠ 0 then (true, b.2)
    else (decide (b.2.T ≤ 5 / 1000), b.2)

/-- The `for` loop of `rcv_update_srch` with `k` iterations left. -/
def srch_loop (rcv : Rcv) : Nat → Rcv
  | 0 => rcv
  | k + 1 =>
    let rcv1 : Rcv := { rcv with ich := Int.tmod (rcv.ich + 1) rcv.nch }
    match rcv1.th[rcv1.ich.toNat]? with
    | none => rcv1
    | some t =>
      if t.ch.state ≠ ChState.IDLE then srch_loop rcv1 k
      else
        let c := srch_cond rcv1 t.ch
        if c.1 then rcv1.setCh rcv1.ich.toNat { c.2 with state := ChState.SRCH }
        else srch_loop (rcv1.setCh rcv1.ich.toNat c.2) k

/-- Function `rcv_update_srch`. -/
def rcv_update_srch (rcv : Rcv) : Rcv :=
  if 0 ≤ rcv.ich ∧ rcv.chState rcv.ich.toNat = some ChState.SRCH then rcv
  else srch_loop rcv rcv.th.length

/-- Function `sdr_rcv_start` (thread creation left out): returns the status and
the receiver. `isStdin` is `fp == stdin`. -/
def sdr_rcv_start (rcv : Rcv) (isStdin : Bool) : Int × Rcv :=
  if rcv.state ≠ 0 then (0, rcv)
  else
    (1, { rcv with
            th := rcv.th.map (fun t =>
              { t with ch := if isStdin then t.ch else { t.ch with state := ChState.SRCH },
                       state := 1 })
            state := 1
            isStdin := isStdin })

/-! ## Scheduler runs -/

/-- Number of channels in state SEARCH. -/
def countSrch (rcv : Rcv) : Nat :=
  rcv.th.countP (fun t => decide (t.ch.state = ChState.SRCH))

/-- State changes the DSP kernel makes on its own channel: SEARCH to LOCK or
IDLE, LOCK to IDLE, or none. -/
def kernelMove : ChState → ChState → Bool
  | ChState.SRCH, ChState.LOCK => true
  | ChState.SRCH, ChState.IDLE => true
  | ChState.LOCK, ChState.IDLE => true
  | a, b => decide (a = b)

/-- One event of a running receiver, seen from the scheduler: a receiver tick
(`rcv_read_data` publishes `ix`, then `rcv_update_srch` runs) or a DSP-kernel
update of channel `i`, which may rewrite every channel field but moves the
state only along `kernelMove`. -/
inductive SchedStep : Rcv → Rcv → Prop where
  | tick (rcv : Rcv) (ix : Int) :
      SchedStep rcv (rcv_update_srch { rcv with ix := ix })
  | kernel (rcv : Rcv) (i : Nat) (t : ChTh) (ch : Ch) :
      rcv.th[i]? = some t → kernelMove t.ch.state ch.state = true →
      SchedStep rcv (rcv.setCh i ch)

/-- Receiver as `sdr_rcv_new` leaves it for the scheduler: `ich = -1`, not
started, every channel IDLE. -/
def Rcv.fresh (rcv : Rcv) : Prop :=
  rcv.state = 0 ∧ rcv.ich = -1 ∧ ∀ t ∈ rcv.th, t.ch.state = ChState.IDLE

/-- Scheduler invariant: `ich` is `-1` or a channel index, and no channel other
than channel `ich` is in SEARCH. -/
def SrchInv (rcv : Rcv) : Prop :=
  -1 ≤ rcv.ich ∧ rcv.ich < rcv.nch ∧
    ∀ i : Nat, (i : Int) ≠ rcv.ich → rcv.chState i ≠ some ChState.SRCH

/-- The channel visited by iteration `j` of the sweep of `rcv_update_srch`
entered with cursor `rcv.ich`: `(ich + 1 + j) mod nch`. -/
def sweepIdx (rcv : Rcv) (j : Nat) : Int := (rcv.ich + 1 + j) % rcv.nch

/-- Channel `i` is IDLE and satisfies the search condition of
`rcv_update_srch`. -/
def qualifies (rcv : Rcv) (i : Nat) : Bool :=
  match rcv.th[i]? with
  | some t => decide (t.ch.state = ChState.IDLE) && (srch_cond rcv t.ch).1
  | none => false

/-- Channel `d` can serve as donor for `ch` in `assist_acq`: same `sat`, in
LOCK, and `lock * T >= MIN_LOCK`. -/
def isDonor (ch : Ch) (d : Ch) : Bool :=
  decide (ch.sat = d.sat) && decide (d.state = ChState.LOCK) &&
    decide (MIN_LOCK ≤ (d.lock : ℚ) * d.T)

/-! ## Receiver loop and flow control -/

/-- Control point of `rcv_thread`: at the top of the loop body, inside
`rcv_wait` testing worker `i`, or after the loop. -/
inductive Pc where
  | read
  | wait (i : Nat)
  | done
  deriving DecidableEq, Repr

/-- What happens at the top of the loop of `rcv_thread`: the stop flag is
found cleared, `rcv_read_data` hits the end of the file, or it succeeds. -/
inductive ReadEv where
  | stop
  | eof
  | ok
  deriving DecidableEq, Repr

/-- Cursors of the receiver loop: loop variable `ix`, write pointer
`ix_w = rcv->ix`, read pointers `ix_r = th[i]->ix`, and the ticks at which a
`$TIME` record was written. -/
structure Flow where
  pc : Pc
  ix : Int
  ix_w : Int
  ix_r : List Int
  isStdin : Bool
  time_log : List Int

/-- Cursors when `rcv_thread` starts with `nch` workers. -/
def Flow.init (nch : Nat) (isStdin : Bool) : Flow :=
  { pc := Pc.read, ix := 0, ix_w := 0, ix_r := List.replicate nch 0,
    isStdin := isStdin, time_log := [] }

/-- One step of `rcv_thread`: the loop body up to `rcv_wait`, or one test of
the `while` condition of `rcv_wait`. -/
def rcv_thread_step (s : Flow) (ev : ReadEv) : Flow :=
  match s.pc with
  | Pc.read =>
    match ev with
    | ReadEv.stop => { s with pc := Pc.done }
    | ReadEv.eof =>
      { s with pc := Pc.done,
               time_log := if Int.tmod s.ix LOG_CYC = 0 then s.time_log ++ [s.ix]
                           else s.time_log }
    | ReadEv.ok =>
      let s1 : Flow :=
        { s with ix_w := s.ix,
                 time_log := if Int.tmod s.ix LOG_CYC = 0 then s.time_log ++ [s.ix]
                             else s.time_log }
      if s.isStdin then { s1 with ix := s.ix + 1 } else { s1 with pc := Pc.wait 0 }
  | Pc.wait i =>
    match s.ix_r[i]? with
    | some r => if s.ix_w + 1 - r ≥ MAX_BUFF - 10 then s else { s with pc := Pc.wait (i + 1) }
    | none => { s with pc := Pc.read, ix := s.ix + 1 }
  | Pc.done => s

/-- Steps of the cursor system: a step of the receiver loop, or worker `j`
raising its own read pointer. -/
inductive FlowStep : Flow → Flow → Prop where
  | writer (s : Flow) (ev : ReadEv) : FlowStep s (rcv_thread_step s ev)
  | worker (s : Flow) (j : Nat) (r v : Int) :
      s.ix_r[j]? = some r → r ≤ v → FlowStep s { s with ix_r := s.ix_r.set j v }

/-- Bound shared by the flow-control invariants: every worker is less than
`c` cycles behind `ix_w + 1`. -/
def Flow.behind (s : Flow) (c : Int) : Prop :=
  ∀ (j : Nat) (r : Int), s.ix_r[j]? = some r → s.ix_w + 1 - r < c

/-- Invariant of the cursor system for file input. -/
def FlowInv (s : Flow) : Prop :=
  s.isStdin = false ∧ (∀ (j : Nat) (r : Int), s.ix_r[j]? = some r → 0 ≤ r) ∧
    match s.pc with
    | Pc.read => (s.ix = 0 ∧ s.ix_w = 0) ∨ (s.ix = s.ix_w + 1 ∧ s.behind (MAX_BUFF - 10))
    | Pc.wait i =>
      s.ix = s.ix_w ∧ s.behind (MAX_BUFF - 9) ∧
        ∀ (j : Nat) (r : Int), j < i → s.ix_r[j]? = some r → s.ix_w + 1 - r < MAX_BUFF - 10
    | Pc.done => s.behind MAX_BUFF

/-- Invariant of the `$TIME` log of the receiver loop. -/
def TimeLogInv (s : Flow) : Prop :=
  0 ≤ s.ix ∧ s.time_log.Nodup ∧
    (∀ t ∈ s.time_log, 0 ≤ t ∧ t % LOG_CYC = 0 ∧ t ≤ s.ix) ∧
    (∀ t : Int, 0 ≤ t → t < s.ix → t % LOG_CYC = 0 → t ∈ s.time_log) ∧
    match s.pc with
    | Pc.read => ∀ t ∈ s.time_log, t < s.ix
    | Pc.wait _ => s.ix % LOG_CYC = 0 → s.ix ∈ s.time_log
    | Pc.done => True

/-! ## Channel worker -/

/-- One call of `sdr_ch_update`: cursor, buffer offset, and the write pointer
seen by the loop test before it. -/
structure KCall where
  ix : Int
  off : Int
  ix_w : Int
  deriving DecidableEq, Repr

/-- Local state of `ch_thread`: cursor `ix`, published read pointer
`ix_r = th->ix`, kernel calls made and cursors at which `$CH` was written. -/
structure ThRun where
  ix : Int
  ix_r : Int
  calls : List KCall
  log : List Int

/-- Cycles per channel integration, `n = th->ch->N / th->rcv->N`. -/
def ch_n (th : ChTh) (rcv : Rcv) : Int := Int.tdiv th.ch.N rcv.N

/-- One test of the `for` condition of `ch_thread` with `w` the value read
from `rcv->ix`, and the loop body if it holds. `kern ix` is the channel state
left by `sdr_ch_update` at cursor `ix`. -/
def ch_thread_step (th : ChTh) (rcv : Rcv) (kern : Int → ChState) (s : ThRun) (w : Int) :
    ThRun :=
  let n := ch_n th rcv
  if s.ix + 2 * n ≤ w + 1 then
    { ix := s.ix + n,
      ix_r := s.ix,
      calls := s.calls ++ [{ ix := s.ix, off := rcv.N * Int.tmod s.ix MAX_BUFF, ix_w := w }],
      log := if kern s.ix = ChState.LOCK ∧ Int.tmod s.ix LOG_CYC = 0 then s.log ++ [s.ix]
             else s.log }
  else s

/-- Function `ch_thread` run over the successive values `obs` it reads from
`rcv->ix`. -/
def ch_thread (th : ChTh) (rcv : Rcv) (kern : Int → ChState) (obs : List Int) : ThRun :=
  obs.foldl (ch_thread_step th rcv kern) { ix := 0, ix_r := th.ix, calls := [], log := [] }

/-- Invariant of a run of `ch_thread` with `n` cycles per integration that has
read the write-pointer values `seen`. -/
def RunInv (n : Int) (rcv : Rcv) (s : ThRun) (seen : List Int) : Prop :=
  n ∣ s.ix ∧ 0 ≤ s.ix ∧ 0 ≤ s.ix_r ∧
    (s.ix_r = 0 ∨ ∃ v ∈ seen, s.ix_r + 2 * n ≤ v + 1) ∧
    ∀ c ∈ s.calls, n ∣ c.ix ∧ 0 ≤ c.ix ∧ c.ix + 2 * n ≤ c.ix_w + 1 ∧ c.ix + n ≤ c.ix_w ∧
      c.off = rcv.N * (c.ix % MAX_BUFF) ∧ c.ix_w ∈ seen

/-- Invariant of the `$CH` log of a run of `ch_thread` on a channel that stays
in LOCK. -/
def ChLogInv (n : Int) (s : ThRun) : Prop :=
  n ∣ s.ix ∧ 0 ≤ s.ix ∧ s.log.Nodup ∧
    ∀ t : Int, t ∈ s.log ↔ (0 ≤ t ∧ t < s.ix ∧ n ∣ t ∧ t % LOG_CYC = 0)

/-! ## Sample decoder -/

/-- The table `val` of `gen_LUT`. -/
def val (k : Nat) : Int := [1, 3, -1, -3].getD k 0

/-- The static table `LUT[2][256]`: `LUT k i` is `LUT[k][i]`. -/
abbrev Lut := Nat → Nat → Cpx

/-- The zero-initialised table. -/
def Lut.zero : Lut := fun _ _ => (0, 0)

/-- Function `gen_LUT`. -/
def gen_LUT (IQ0 IQ1 : Int) (LUT : Lut) : Lut := fun k i =>
  if i < 256 then
    if k = 0 then (val ((i >>> 0) &&& 3), if IQ0 = 1 then 0 else -val ((i >>> 2) &&& 3))
    else if k = 1 then (val ((i >>> 4) &&& 3), if IQ1 = 1 then 0 else -val ((i >>> 6) &&& 3))
    else LUT k i
  else LUT k i

/-- The cast `(uint8_t)` of an `int8_t`. -/
def u8 (x : Int) : Nat := (x % 256).toNat

/-- Store `v` at `buff[k][i]`. -/
def setBuff (b : Nat → Int → Cpx) (k : Nat) (i : Int) (v : Cpx) : Nat → Int → Cpx :=
  fun k1 i1 => if k1 = k ∧ i1 = i then v else b k1 i1

/-- The first `n` iterations of the packed-raw loop of `rcv_read_data`. -/
def raw_loop (LUT : Lut) (raw : List Int) (i0 : Int) : Nat → (Nat → Int → Cpx) → Nat → Int → Cpx
  | 0, b => b
  | n + 1, b =>
    let r := u8 (raw.getD n 0)
    setBuff (setBuff (raw_loop LUT raw i0 n b) 0 (i0 + n) (LUT 0 r)) 1 (i0 + n) (LUT 1 r)

/-- The first `n` iterations of the I-sampling loop of `rcv_read_data`. -/
def int8_I_loop (raw : List Int) (i0 : Int) : Nat → (Nat → Int → Cpx) → Nat → Int → Cpx
  | 0, b => b
  | n + 1, b => setBuff (int8_I_loop raw i0 n b) 0 (i0 + n) (raw.getD n 0, 0)

/-- The first `n` iterations of the I/Q-sampling loop of `rcv_read_data`. -/
def int8_IQ_loop (raw : List Int) (i0 : Int) : Nat → (Nat → Int → Cpx) → Nat → Int → Cpx
  | 0, b => b
  | n + 1, b =>
    setBuff (int8_IQ_loop raw i0 n b) 0 (i0 + n) (raw.getD (n * 2) 0, -raw.getD (n * 2 + 1) 0)

/-- Function `rcv_read_data`, with the static table threaded through. `fp` is
the rest of the input as `int8_t` values. Returns the status, the receiver, the
table and the rest of the input. -/
def rcv_read_data (rcv : Rcv) (LUT : Lut) (ix : Int) (fp : List Int) :
    Int × Rcv × Lut × List Int :=
  let i := rcv.N * Int.tmod ix MAX_BUFF
  let ns : Int := if rcv.fmt = Fmt.RAW ∨ rcv.IQ0 = 1 then 1 else 2
  let cnt := (rcv.N * ns).toNat
  let got := if rcv.N < 0 then fp else fp.take cnt
  let rcv1 : Rcv := { rcv with raw := got ++ rcv.raw.drop got.length }
  if rcv.N < 0 ∨ (fp.length : Int) < rcv.N * ns then
    (0, rcv1, LUT, fp.drop got.length)
  else if rcv.fmt = Fmt.RAW then
    let LUT1 := if (LUT 0 0).1 = 0 then gen_LUT rcv.IQ0 rcv.IQ1 LUT else LUT
    (1, { rcv1 with buff := raw_loop LUT1 rcv1.raw i rcv.N.toNat rcv.buff, ix := ix }, LUT1,
      fp.drop cnt)
  else if rcv.IQ0 = 1 then
    (1, { rcv1 with buff := int8_I_loop rcv1.raw i rcv.N.toNat rcv.buff, ix := ix }, LUT,
      fp.drop cnt)
  else if rcv.IQ0 = 2 then
    (1, { rcv1 with buff := int8_IQ_loop rcv1.raw i rcv.N.toNat rcv.buff, ix := ix }, LUT,
      fp.drop cnt)
  else
    (1, { rcv1 with ix := ix }, LUT, fp.drop cnt)

/-- Inverse of the table `val`, as the round-trip property words it: the 2-bit
code of a quantised level, if it is one. -/
def val_code (v : Int) : Option Nat :=
  if v = 1 then some 0 else if v = 3 then some 1 else if v = -1 then some 2
  else if v = -3 then some 3 else none

/-- Re-encoding of the two `(I, Q)` pairs of a byte, as the round-trip property
words it: codes of `I` and `-Q` of front-end 0 in bits 1:0 and 3:2, of
front-end 1 in bits 5:4 and 7:6. -/
def reencode (p0 p1 : Cpx) : Option Nat :=
  match val_code p0.1, val_code (-p0.2), val_code p1.1, val_code (-p1.2) with
  | some a, some b, some c, some d => some (a ||| (b <<< 2) ||| (c <<< 4) ||| (d <<< 6))
  | _, _, _, _ => none

/-! ## Example inputs -/

/-- A GPS L1 C/A channel (1 ms code, 12000 samples at 12 MHz) as constructed:
IDLE, never locked. -/
def exCh (sat : String) : Ch :=
  { state := ChState.IDLE, sat := sat, T := 1 / 1000, N := 12000, lock := 0, time := 0,
    fd := 0, fc := 1575420000, fd_ext := 0 }

/-- A worker for `exCh`, not started. -/
def exTh (sat : String) : ChTh := { ch := exCh sat, state := 0, ix := 0, if_ch := 0 }

/-- A two-channel INT8 receiver at 12 MHz as constructed by `sdr_rcv_new`. -/
def exRcv : Rcv :=
  { state := 0, ich := -1, ix := 0, N := 12000, len_buff := 12000 * 8000, fmt := Fmt.INT8,
    IQ0 := 1, IQ1 := 0, th := [exTh "G01", exTh "G02"], raw := [],
    buff := fun _ _ => (0, 0), isStdin := false }

/-- A packed-raw receiver with two samples per cycle, both front-ends
I-sampling. -/
def exRcvRaw : Rcv :=
  { exRcv with N := 2, len_buff := 2 * 8000, fmt := Fmt.RAW, IQ0 := 1, IQ1 := 1, th := [] }

/-- A packed-raw receiver with two samples per cycle, both front-ends
I/Q-sampling. -/
def exRcvRawIQ : Rcv := { exRcvRaw with IQ0 := 2, IQ1 := 2 }

/-- An INT8 I/Q-sampling receiver with two samples per cycle. -/
def exRcvInt8 : Rcv := { exRcvRaw with fmt := Fmt.INT8, IQ0 := 2, IQ1 := 0 }

/-- Worker of a channel with a 3 ms integration period (36000 samples at
12 MHz). -/
def exTh3 : ChTh := { exTh "G01" with ch := { exCh "G01" with T := 3 / 1000, N := 36000 } }

/-- Worker of a channel with a 4 ms integration period (48000 samples at
12 MHz). -/
def exTh4 : ChTh := { exTh "G01" with ch := { exCh "G01" with T := 4 / 1000, N := 48000 } }

/-- Worker of an L1 C/A channel of G01 in LOCK for 5 s with Doppler 1000 Hz,
last updated at 30 s. -/
def exThLock : ChTh :=
  { exTh "G01" with
      ch := { exCh "G01" with state := ChState.LOCK, lock := 5000, time := 30, fd := 1000 } }

/-- Worker of an L2CM channel (20 ms code) of G01, IDLE and never locked. -/
def exThL2 : ChTh :=
  { exTh "G01" with ch := { exCh "G01" with T := 20 / 1000, N := 240000, fc := 1227600000 } }

/-- Two signals of satellite G01 on stream tick 30000: channel 0 in LOCK,
channel 1 IDLE; channel 0 was the last one searched. -/
def exRcvAssist : Rcv :=
  { exRcv with state := 1, ich := 0, ix := 30000, th := [exThLock, exThL2] }

/-- An IDLE L1 C/A channel that was in lock for 5 s and was last updated at
stream time 30 s, with last Doppler 1000 Hz. -/
def exChStale : Ch := { exCh "G01" with lock := 5000, time := 30, fd := 1000 }

/-! ## Scheduler lemmas -/

theorem re_acq_snd (rcv : Rcv) (ch : Ch) :
    (re_acq rcv ch).2 = { ch with fd_ext := (re_acq rcv ch).2.fd_ext } := by
  unfold re_acq
  split <;> rfl

theorem re_acq_zero (rcv : Rcv) (ch : Ch) (h : (re_acq rcv ch).1 = 0) :
    (re_acq rcv ch).2 = ch := by
  unfold re_acq at h ⊢
  split at h
  · simp at h
  · rename_i hc
    rw [if_neg hc]

theorem assist_acq_loop_snd (ch : Ch) (l : List ChTh) :
    (assist_acq_loop ch l).2 = { ch with fd_ext := (assist_acq_loop ch l).2.fd_ext } := by
  induction l with
  | nil => rfl
  | cons t rest ih =>
    unfold assist_acq_loop
    split
    · exact ih
    · rfl

theorem assist_acq_loop_zero (ch : Ch) (l : List ChTh) (h : (assist_acq_loop ch l).1 = 0) :
    (assist_acq_loop ch l).2 = ch := by
  induction l with
  | nil => rfl
  | cons t rest ih =>
    unfold assist_acq_loop at h ⊢
    split at h
    · rename_i hc
      rw [if_pos hc]
      exact ih h
    · simp at h

theorem srch_cond_snd (rcv : Rcv) (ch : Ch) :
    (srch_cond rcv ch).2 = { ch with fd_ext := (srch_cond rcv ch).2.fd_ext } := by
  unfold srch_cond
  simp only
  split
  · exact re_acq_snd rcv ch
  · rename_i h0
    have h1 : (re_acq rcv ch).2 = ch := re_acq_zero rcv ch (by simpa using h0)
    rw [h1]
    split
    · exact assist_acq_loop_snd ch rcv.th
    · exact assist_acq_loop_snd ch rcv.th

theorem srch_cond_false (rcv : Rcv) (ch : Ch) (h : (srch_cond rcv ch).1 = false) :
    (srch_cond rcv ch).2 = ch := by
  unfold srch_cond at h ⊢
  simp only at h ⊢
  split at h
  · simp at h
  · rename_i h0
    rw [if_neg h0]
    have h1 : (re_acq rcv ch).2 = ch := re_acq_zero rcv ch (by simpa using h0)
    rw [h1] at h ⊢
    split at h
    · simp at h
    · rename_i h2
      rw [if_neg h2]
      exact assist_acq_loop_zero ch rcv.th (by simpa [assist_acq] using h2)

theorem srch_cond_ich (rcv : Rcv) (x : Int) (ch : Ch) :
    srch_cond { rcv with ich := x } ch = srch_cond rcv ch := rfl

theorem qualifies_ich (rcv : Rcv) (x : Int) (i : Nat) :
    qualifies { rcv with ich := x } i = qualifies rcv i := rfl

theorem modify_same {α : Type} (f : α → α) (l : List α) (i : Nat) (a : α)
    (h : l[i]? = some a) (hf : f a = a) : l.modify f i = l := by
  apply List.ext_getElem?
  intro m
  rw [List.getElem?_modify]
  by_cases hm : i = m
  · subst hm
    simp [h, hf]
  · simp [hm]

theorem setCh_same (rcv : Rcv) (i : Nat) (t : ChTh) (h : rcv.th[i]? = some t) :
    rcv.setCh i t.ch = rcv := by
  unfold Rcv.setCh
  rw [modify_same _ rcv.th i t h rfl]

theorem sweepIdx_range (rcv : Rcv) (j : Nat) (hn : 0 < rcv.th.length) :
    0 ≤ sweepIdx rcv j ∧ sweepIdx rcv j < rcv.nch ∧ (sweepIdx rcv j).toNat < rcv.th.length := by
  have hpos : (0 : Int) < rcv.nch := by
    unfold Rcv.nch
    exact_mod_cast hn
  have h1 : 0 ≤ sweepIdx rcv j := Int.emod_nonneg _ (by omega)
  have h2 : sweepIdx rcv j < rcv.nch := Int.emod_lt_of_pos _ hpos
  refine ⟨h1, h2, ?_⟩
  unfold Rcv.nch at h2
  omega

theorem sweep_tmod (rcv : Rcv) (hi : -1 ≤ rcv.ich) :
    Int.tmod (rcv.ich + 1) rcv.nch = sweepIdx rcv 0 := by
  unfold sweepIdx
  rw [Int.tmod_eq_emod (by omega) (by unfold Rcv.nch; omega)]
  simp

theorem sweepIdx_shift (rcv : Rcv) (j : Nat) :
    sweepIdx { rcv with ich := sweepIdx rcv 0 } j = sweepIdx rcv (j + 1) := by
  unfold sweepIdx Rcv.nch
  simp only [Nat.cast_zero, add_zero, Nat.cast_add, Nat.cast_one]
  rw [add_assoc, Int.emod_add_emod]
  congr 1
  ring

theorem srch_loop_miss (rcv : Rcv) (k : Nat) (hn : 0 < rcv.th.length) (hi : -1 ≤ rcv.ich)
    (hq : qualifies rcv (sweepIdx rcv 0).toNat = false) :
    srch_loop rcv (k + 1) = srch_loop { rcv with ich := sweepIdx rcv 0 } k := by
  obtain ⟨_, _, hlt⟩ := sweepIdx_range rcv 0 hn
  have hget : rcv.th[(sweepIdx rcv 0).toNat]? = some (rcv.th[(sweepIdx rcv 0).toNat]) :=
    List.getElem?_eq_getElem hlt
  rw [srch_loop]
  simp only [sweep_tmod rcv hi, hget]
  unfold qualifies at hq
  rw [hget] at hq
  simp only [Bool.and_eq_false_imp, decide_eq_true_eq] at hq
  by_cases hs : (rcv.th[(sweepIdx rcv 0).toNat]).ch.state = ChState.IDLE
  · have hc := hq hs
    have hc1 : (srch_cond { rcv with ich := sweepIdx rcv 0 }
        (rcv.th[(sweepIdx rcv 0).toNat]).ch).1 = false := hc
    have hc2 := srch_cond_false _ _ hc1
    simp only [hs, ne_eq, not_true_eq_false, if_false, hc1, hc2, Bool.false_eq_true]
    rw [setCh_same ({ rcv with ich := sweepIdx rcv 0 } : Rcv) _ _ hget]
  · simp [hs]

theorem srch_loop_hit (rcv : Rcv) (k : Nat) (hn : 0 < rcv.th.length) (hi : -1 ≤ rcv.ich)
    (hq : qualifies rcv (sweepIdx rcv 0).toNat = true) :
    ∃ t, rcv.th[(sweepIdx rcv 0).toNat]? = some t ∧ t.ch.state = ChState.IDLE ∧
      srch_loop rcv (k + 1) =
        ({ rcv with ich := sweepIdx rcv 0 } : Rcv).setCh (sweepIdx rcv 0).toNat
          { (srch_cond rcv t.ch).2 with state := ChState.SRCH } := by
  obtain ⟨_, _, hlt⟩ := sweepIdx_range rcv 0 hn
  have hget : rcv.th[(sweepIdx rcv 0).toNat]? = some (rcv.th[(sweepIdx rcv 0).toNat]) :=
    List.getElem?_eq_getElem hlt
  unfold qualifies at hq
  rw [hget] at hq
  simp only [Bool.and_eq_true, decide_eq_true_eq] at hq
  refine ⟨_, hget, hq.1, ?_⟩
  rw [srch_loop]
  simp only [sweep_tmod rcv hi, hget]
  have hc1 : (srch_cond { rcv with ich := sweepIdx rcv 0 }
      (rcv.th[(sweepIdx rcv 0).toNat]).ch).1 = true := hq.2
  simp only [hq.1, ne_eq, not_true_eq_false, if_false, hc1, if_true]
  rfl

theorem srch_loop_none (k : Nat) : ∀ (rcv : Rcv), 0 < rcv.th.length → -1 ≤ rcv.ich →
    (∀ j, j ≤ k → qualifies rcv (sweepIdx rcv j).toNat = false) →
    srch_loop rcv (k + 1) = { rcv with ich := sweepIdx rcv k } := by
  induction k with
  | zero =>
    intro rcv hn hi hq
    rw [srch_loop_miss rcv 0 hn hi (hq 0 (le_refl 0))]
    rfl
  | succ k ih =>
    intro rcv hn hi hq
    rw [srch_loop_miss rcv (k + 1) hn hi (hq 0 (Nat.zero_le _))]
    have hr := sweepIdx_range rcv 0 hn
    rw [ih { rcv with ich := sweepIdx rcv 0 } hn (by show -1 ≤ sweepIdx rcv 0; omega)]
    · rw [sweepIdx_shift]
    · intro j hj
      rw [sweepIdx_shift, qualifies_ich]
      exact hq (j + 1) (by omega)

theorem srch_loop_first (k : Nat) : ∀ (rcv : Rcv) (j : Nat), 0 < rcv.th.length → -1 ≤ rcv.ich →
    j ≤ k → qualifies rcv (sweepIdx rcv j).toNat = true →
    (∀ j1, j1 < j → qualifies rcv (sweepIdx rcv j1).toNat = false) →
    ∃ t, rcv.th[(sweepIdx rcv j).toNat]? = some t ∧ t.ch.state = ChState.IDLE ∧
      srch_loop rcv (k + 1) =
        ({ rcv with ich := sweepIdx rcv j } : Rcv).setCh (sweepIdx rcv j).toNat
          { (srch_cond rcv t.ch).2 with state := ChState.SRCH } := by
  induction k with
  | zero =>
    intro rcv j hn hi hj hq _
    have hj0 : j = 0 := by omega
    subst hj0
    exact srch_loop_hit rcv 0 hn hi hq
  | succ k ih =>
    intro rcv j hn hi hj hq hfirst
    rcases Nat.eq_zero_or_pos j with hj0 | hjpos
    · subst hj0
      exact srch_loop_hit rcv (k + 1) hn hi hq
    · obtain ⟨j1, rfl⟩ : ∃ j1, j = j1 + 1 := ⟨j - 1, by omega⟩
      rw [srch_loop_miss rcv (k + 1) hn hi (hfirst 0 hjpos)]
      have hr := sweepIdx_range rcv 0 hn
      have h := ih { rcv with ich := sweepIdx rcv 0 } j1 hn
        (by show -1 ≤ sweepIdx rcv 0; omega) (by omega)
        (by rw [sweepIdx_shift, qualifies_ich]; exact hq)
        (by
          intro j2 hj2
          rw [sweepIdx_shift, qualifies_ich]
          exact hfirst (j2 + 1) (by omega))
      rw [sweepIdx_shift] at h
      exact h

theorem chState_setCh_ne (rcv : Rcv) (i m : Nat) (ch : Ch) (h : m ≠ i) :
    (rcv.setCh i ch).chState m = rcv.chState m := by
  unfold Rcv.chState Rcv.setCh
  simp only
  rw [List.getElem?_modify_ne _ _ (Ne.symm h)]

theorem chState_setCh_eq (rcv : Rcv) (i : Nat) (ch : Ch) (t : ChTh) (h : rcv.th[i]? = some t) :
    (rcv.setCh i ch).chState i = some ch.state := by
  unfold Rcv.chState Rcv.setCh
  simp only
  rw [List.getElem?_modify_eq, h]
  rfl

theorem sweepIdx_surj (rcv : Rcv) (i : Nat) (hi : i < rcv.th.length) :
    ∃ j, j < rcv.th.length ∧ (sweepIdx rcv j).toNat = i := by
  have hpos : (0 : Int) < rcv.nch := by
    unfold Rcv.nch
    omega
  have h1 : 0 ≤ ((i : Int) - (rcv.ich + 1)) % rcv.nch := Int.emod_nonneg _ (by omega)
  have h2 : ((i : Int) - (rcv.ich + 1)) % rcv.nch < rcv.nch := Int.emod_lt_of_pos _ hpos
  refine ⟨(((i : Int) - (rcv.ich + 1)) % rcv.nch).toNat, ?_, ?_⟩
  · have h3 : ((((i : Int) - (rcv.ich + 1)) % rcv.nch).toNat : Int) < rcv.th.length := by
      rw [Int.toNat_of_nonneg h1]
      exact h2
    exact_mod_cast h3
  · unfold sweepIdx
    rw [Int.toNat_of_nonneg h1, Int.add_emod_emod]
    have : rcv.ich + 1 + ((i : Int) - (rcv.ich + 1)) = i := by ring
    rw [this, Int.emod_eq_of_lt (by omega) (by unfold Rcv.nch; omega)]
    simp

theorem first_qualifying (rcv : Rcv) (h : ∃ i, i < rcv.th.length ∧ qualifies rcv i = true) :
    ∃ j, j < rcv.th.length ∧ qualifies rcv (sweepIdx rcv j).toNat = true ∧
      ∀ j1, j1 < j → qualifies rcv (sweepIdx rcv j1).toNat = false := by
  obtain ⟨i, hi, hq⟩ := h
  obtain ⟨j0, hj0, hj0i⟩ := sweepIdx_surj rcv i hi
  have hex : ∃ j, j < rcv.th.length ∧ qualifies rcv (sweepIdx rcv j).toNat = true :=
    ⟨j0, hj0, by rw [hj0i]; exact hq⟩
  classical
  refine ⟨Nat.find hex, (Nat.find_spec hex).1, (Nat.find_spec hex).2, ?_⟩
  intro j1 hj1
  have hmin := Nat.find_min hex hj1
  have hlt : j1 < rcv.th.length := lt_trans hj1 (Nat.find_spec hex).1
  cases hb : qualifies rcv (sweepIdx rcv j1).toNat
  · rfl
  · exact absurd ⟨hlt, hb⟩ hmin

theorem rcv_update_srch_idle (rcv : Rcv)
    (hbusy : rcv.ich = -1 ∨ rcv.chState rcv.ich.toNat ≠ some ChState.SRCH) :
    rcv_update_srch rcv = srch_loop rcv rcv.th.length := by
  unfold rcv_update_srch
  rw [if_neg]
  rintro ⟨h0, hs⟩
  rcases hbusy with h | h
  · omega
  · exact h hs

/-- C3. Round-robin selection. For a receiver with `nch >= 1` and `ich` equal to
`-1` or a channel index whose channel is not in SEARCH: if some IDLE channel
satisfies the search condition (`re_acq`, `assist_acq` or `T <= 5 ms`), then
after `rcv_update_srch` the cursor `ich` is the first such channel in the cyclic
order `(ich+1) mod nch, (ich+2) mod nch, ...`, that channel is in SEARCH and the
state of every other channel is unchanged; if none does, no channel state
changes. -/
theorem rcv_update_srch_round_robin (rcv : Rcv) (hn : 1 ≤ rcv.th.length)
    (hlo : -1 ≤ rcv.ich) (_hhi : rcv.ich < rcv.nch)
    (hbusy : rcv.ich = -1 ∨ rcv.chState rcv.ich.toNat ≠ some ChState.SRCH) :
    ((∃ i, i < rcv.th.length ∧ qualifies rcv i = true) →
      ∃ j, j < rcv.th.length ∧ qualifies rcv (sweepIdx rcv j).toNat = true ∧
        (∀ j1, j1 < j → qualifies rcv (sweepIdx rcv j1).toNat = false) ∧
        (rcv_update_srch rcv).ich = sweepIdx rcv j ∧
        (rcv_update_srch rcv).chState (sweepIdx rcv j).toNat = some ChState.SRCH ∧
        ∀ i, i ≠ (sweepIdx rcv j).toNat →
          (rcv_update_srch rcv).chState i = rcv.chState i) ∧
    ((∀ i, i < rcv.th.length → qualifies rcv i = false) →
      ∀ i, (rcv_update_srch rcv).chState i = rcv.chState i) := by
  have hn0 : 0 < rcv.th.length := hn
  obtain ⟨k, hk⟩ : ∃ k, rcv.th.length = k + 1 := ⟨rcv.th.length - 1, by omega⟩
  rw [rcv_update_srch_idle rcv hbusy]
  constructor
  · intro hex
    obtain ⟨j, hj, hq, hfirst⟩ := first_qualifying rcv hex
    obtain ⟨t, hget, _, heq⟩ := srch_loop_first k rcv j hn0 hlo (by omega) hq hfirst
    rw [hk]
    refine ⟨j, by omega, hq, hfirst, ?_, ?_, ?_⟩
    · rw [heq]
      rfl
    · rw [heq]
      exact chState_setCh_eq _ _ _ t hget
    · intro i hi
      rw [heq, chState_setCh_ne _ _ _ _ hi]
      rfl
  · intro hnone i
    rw [hk, srch_loop_none k rcv hn0 hlo]
    · rfl
    · intro j _
      exact hnone _ (sweepIdx_range rcv j hn0).2.2

/-! ## Single-search invariant -/

theorem srch_loop_cases (rcv : Rcv) (k : Nat) (hn : 0 < rcv.th.length) (hi : -1 ≤ rcv.ich) :
    srch_loop rcv (k + 1) = { rcv with ich := sweepIdx rcv k } ∨
    ∃ j t, rcv.th[(sweepIdx rcv j).toNat]? = some t ∧
      qualifies rcv (sweepIdx rcv j).toNat = true ∧
      srch_loop rcv (k + 1) =
        ({ rcv with ich := sweepIdx rcv j } : Rcv).setCh (sweepIdx rcv j).toNat
          { (srch_cond rcv t.ch).2 with state := ChState.SRCH } := by
  by_cases hex : ∃ j, j ≤ k ∧ qualifies rcv (sweepIdx rcv j).toNat = true
  · right
    classical
    have hs := Nat.find_spec hex
    obtain ⟨t, h1, h2, h3⟩ := srch_loop_first k rcv (Nat.find hex) hn hi hs.1 hs.2 (by
      intro j1 hj1
      have hmin := Nat.find_min hex hj1
      cases hb : qualifies rcv (sweepIdx rcv j1).toNat
      · rfl
      · exact absurd ⟨by omega, hb⟩ hmin)
    exact ⟨_, t, h1, hs.2, h3⟩
  · left
    apply srch_loop_none k rcv hn hi
    intro j hj
    cases hb : qualifies rcv (sweepIdx rcv j).toNat
    · rfl
    · exact absurd ⟨j, hj, hb⟩ hex

theorem setCh_length (rcv : Rcv) (i : Nat) (ch : Ch) :
    (rcv.setCh i ch).th.length = rcv.th.length := by
  unfold Rcv.setCh
  simp

theorem srch_loop_length (k : Nat) : ∀ rcv : Rcv, (srch_loop rcv k).th.length = rcv.th.length := by
  induction k with
  | zero => intro rcv; rfl
  | succ k ih =>
    intro rcv
    rw [srch_loop]
    simp only
    split
    · rfl
    · split
      · rw [ih]
      · split
        · rw [setCh_length]
        · rw [ih, setCh_length]

theorem rcv_update_srch_length (rcv : Rcv) :
    (rcv_update_srch rcv).th.length = rcv.th.length := by
  unfold rcv_update_srch
  split
  · rfl
  · exact srch_loop_length _ rcv

theorem rcv_update_srch_inv (rcv : Rcv) (h : SrchInv rcv) : SrchInv (rcv_update_srch rcv) := by
  obtain ⟨hlo, hhi, hoth⟩ := h
  by_cases hb : 0 ≤ rcv.ich ∧ rcv.chState rcv.ich.toNat = some ChState.SRCH
  · unfold rcv_update_srch
    rw [if_pos hb]
    exact ⟨hlo, hhi, hoth⟩
  · have hnone : ∀ i : Nat, rcv.chState i ≠ some ChState.SRCH := by
      intro i
      by_cases hi : (i : Int) = rcv.ich
      · intro hs
        apply hb
        refine ⟨by omega, ?_⟩
        rw [← hi]
        simpa using hs
      · exact hoth i hi
    unfold rcv_update_srch
    rw [if_neg hb]
    rcases Nat.eq_zero_or_pos rcv.th.length with h0 | hpos
    · rw [h0]
      exact ⟨hlo, hhi, hoth⟩
    · obtain ⟨k, hk⟩ : ∃ k, rcv.th.length = k + 1 := ⟨rcv.th.length - 1, by omega⟩
      rw [hk]
      rcases srch_loop_cases rcv k hpos hlo with h | ⟨j, t, hget, _, h⟩
      · rw [h]
        have hr := sweepIdx_range rcv k hpos
        exact ⟨by show -1 ≤ sweepIdx rcv k; omega, hr.2.1, fun i _ => hnone i⟩
      · rw [h]
        have hr := sweepIdx_range rcv j hpos
        refine ⟨by show -1 ≤ sweepIdx rcv j; omega, ?_, ?_⟩
        · show sweepIdx rcv j < ((Rcv.setCh _ _ _).th.length : Int)
          rw [setCh_length]
          exact hr.2.1
        · intro i hi
          have hne : i ≠ (sweepIdx rcv j).toNat := by
            intro he
            apply hi
            show (i : Int) = sweepIdx rcv j
            rw [he, Int.toNat_of_nonneg hr.1]
          rw [chState_setCh_ne _ _ _ _ hne]
          exact hnone i

theorem kernelMove_srch (a : ChState) (h : kernelMove a ChState.SRCH = true) :
    a = ChState.SRCH := by
  cases a <;> simp [kernelMove] at h ⊢

theorem kernel_inv (rcv : Rcv) (i : Nat) (t : ChTh) (ch : Ch) (hget : rcv.th[i]? = some t)
    (hm : kernelMove t.ch.state ch.state = true) (h : SrchInv rcv) :
    SrchInv (rcv.setCh i ch) := by
  obtain ⟨hlo, hhi, hoth⟩ := h
  refine ⟨hlo, ?_, ?_⟩
  · show rcv.ich < ((rcv.setCh i ch).th.length : Int)
    rw [setCh_length]
    exact hhi
  · intro m hm1
    have hm2 : (m : Int) ≠ rcv.ich := hm1
    by_cases hmi : m = i
    · subst hmi
      rw [chState_setCh_eq rcv m ch t hget]
      intro hs
      have hs1 : ch.state = ChState.SRCH := by simpa using hs
      rw [hs1] at hm
      have hold := kernelMove_srch _ hm
      apply hoth m hm2
      unfold Rcv.chState
      rw [hget]
      simp [hold]
    · rw [chState_setCh_ne _ _ _ _ hmi]
      exact hoth m hm2

theorem countP_le_one {α : Type} (p : α → Bool) (l : List α)
    (h : ∀ (i j : Nat) (a b : α),
      l[i]? = some a → l[j]? = some b → p a = true → p b = true → i = j) :
    l.countP p ≤ 1 := by
  induction l with
  | nil => simp
  | cons x rest ih =>
    have hrest : rest.countP p ≤ 1 := by
      apply ih
      intro i j a b ha hb hpa hpb
      have := h (i + 1) (j + 1) a b (by simpa using ha) (by simpa using hb) hpa hpb
      omega
    by_cases hx : p x = true
    · have hzero : rest.countP p = 0 := by
        rw [List.countP_eq_zero]
        intro b hb hpb
        obtain ⟨j, hj⟩ := List.getElem?_of_mem hb
        have := h 0 (j + 1) x b (by simp) (by simpa using hj) hx hpb
        omega
      rw [List.countP_cons_of_pos _ _ hx, hzero]
    · rw [List.countP_cons_of_neg _ _ hx]
      exact hrest

theorem countSrch_le_one (rcv : Rcv) (h : SrchInv rcv) : countSrch rcv ≤ 1 := by
  unfold countSrch
  apply countP_le_one
  intro i j a b ha hb hpa hpb
  have hsa : rcv.chState i = some ChState.SRCH := by
    unfold Rcv.chState
    rw [ha]
    simpa using hpa
  have hsb : rcv.chState j = some ChState.SRCH := by
    unfold Rcv.chState
    rw [hb]
    simpa using hpb
  have hi : (i : Int) = rcv.ich := by
    by_contra hne
    exact h.2.2 i hne hsa
  have hj : (j : Int) = rcv.ich := by
    by_contra hne
    exact h.2.2 j hne hsb
  omega

theorem schedStep_inv (a b : Rcv) (hs : SchedStep a b) (h : SrchInv a) : SrchInv b := by
  cases hs with
  | tick ix => exact rcv_update_srch_inv _ h
  | kernel i t ch hget hm => exact kernel_inv a i t ch hget hm h

theorem schedStep_length (a b : Rcv) (hs : SchedStep a b) :
    b.th.length = a.th.length := by
  cases hs with
  | tick ix => exact rcv_update_srch_length _
  | kernel i t ch hget hm => exact setCh_length a i ch

theorem start_srchInv (rcv0 : Rcv) (hfresh : rcv0.fresh) :
    SrchInv (sdr_rcv_start rcv0 true).2 := by
  obtain ⟨hst, hich, hidle⟩ := hfresh
  unfold sdr_rcv_start
  rw [if_neg (by simp [hst])]
  refine ⟨by simp [hich], by simp [hich, Rcv.nch]; omega, ?_⟩
  intro i _
  unfold Rcv.chState
  simp only [List.getElem?_map]
  cases hg : rcv0.th[i]? with
  | none => simp
  | some t =>
    have hmem : t ∈ rcv0.th := List.getElem?_mem hg
    simp [hidle t hmem]

theorem start_length (rcv0 : Rcv) (b : Bool) :
    (sdr_rcv_start rcv0 b).2.th.length = rcv0.th.length := by
  unfold sdr_rcv_start
  split
  · rfl
  · simp

/-- C1 (amended). Single-search invariant. For a receiver as constructed (not
started, `ich = -1`, every channel IDLE) started on stdin, or started on a file
with at most one channel: in every state reachable after `sdr_rcv_start` by
receiver ticks (`rcv_update_srch` after the write cursor is published) and
DSP-kernel updates (SEARCH to LOCK or IDLE, LOCK to IDLE), at most one channel
is in SEARCH. -/
theorem single_search_reachable (rcv0 rcv : Rcv) (isStdin : Bool) (hfresh : rcv0.fresh)
    (hin : isStdin = true ∨ rcv0.th.length ≤ 1)
    (hreach : Relation.ReflTransGen SchedStep (sdr_rcv_start rcv0 isStdin).2 rcv) :
    countSrch rcv ≤ 1 := by
  rcases hin with hstd | hlen
  · subst hstd
    apply countSrch_le_one
    induction hreach with
    | refl => exact start_srchInv rcv0 hfresh
    | tail _ hstep ih => exact schedStep_inv _ _ hstep ih
  · have hl : rcv.th.length = rcv0.th.length := by
      induction hreach with
      | refl => exact start_length rcv0 isStdin
      | tail _ hstep ih => rw [schedStep_length _ _ hstep, ih]
    unfold countSrch
    exact le_trans (List.countP_le_length _) (by omega)

theorem exRcv_fresh : exRcv.fresh := by
  refine ⟨rfl, rfl, ?_⟩
  intro t ht
  simp only [exRcv, List.mem_cons, List.mem_singleton, List.not_mem_nil, or_false] at ht
  rcases ht with rfl | rfl <;> rfl

/-- Witness for `single_search_reachable`: the two-channel receiver started on
stdin, after its first tick. -/
theorem single_search_reachable_witness :
    exRcv.fresh ∧ ((true = true) ∨ exRcv.th.length ≤ 1) ∧
      Relation.ReflTransGen SchedStep (sdr_rcv_start exRcv true).2
        (rcv_update_srch { (sdr_rcv_start exRcv true).2 with ix := 0 }) ∧
      countSrch (rcv_update_srch { (sdr_rcv_start exRcv true).2 with ix := 0 }) ≤ 1 :=
  ⟨exRcv_fresh, Or.inl rfl, Relation.ReflTransGen.single (SchedStep.tick _ 0),
    single_search_reachable exRcv _ true exRcv_fresh (Or.inl rfl)
      (Relation.ReflTransGen.single (SchedStep.tick _ 0))⟩

/-- C1 as stated fails for file input: the two-channel receiver as constructed,
started on a file, has both channels in SEARCH right after `sdr_rcv_start`, and
still after the first tick. -/
theorem single_search_file_counterexample :
    exRcv.fresh ∧
      Relation.ReflTransGen SchedStep (sdr_rcv_start exRcv false).2
        (rcv_update_srch { (sdr_rcv_start exRcv false).2 with ix := 0 }) ∧
      countSrch (sdr_rcv_start exRcv false).2 = 2 ∧
      countSrch (rcv_update_srch { (sdr_rcv_start exRcv false).2 with ix := 0 }) = 2 :=
  ⟨exRcv_fresh, Relation.ReflTransGen.single (SchedStep.tick _ 0), by decide, by decide⟩

/-- Witness for `rcv_update_srch_round_robin`: the two-channel receiver as
constructed. -/
theorem rcv_update_srch_round_robin_witness :
    (1 ≤ exRcv.th.length ∧ -1 ≤ exRcv.ich ∧ exRcv.ich < exRcv.nch ∧
      (exRcv.ich = -1 ∨ exRcv.chState exRcv.ich.toNat ≠ some ChState.SRCH)) ∧
    (((∃ i, i < exRcv.th.length ∧ qualifies exRcv i = true) →
      ∃ j, j < exRcv.th.length ∧ qualifies exRcv (sweepIdx exRcv j).toNat = true ∧
        (∀ j1, j1 < j → qualifies exRcv (sweepIdx exRcv j1).toNat = false) ∧
        (rcv_update_srch exRcv).ich = sweepIdx exRcv j ∧
        (rcv_update_srch exRcv).chState (sweepIdx exRcv j).toNat = some ChState.SRCH ∧
        ∀ i, i ≠ (sweepIdx exRcv j).toNat →
          (rcv_update_srch exRcv).chState i = exRcv.chState i) ∧
    ((∀ i, i < exRcv.th.length → qualifies exRcv i = false) →
      ∀ i, (rcv_update_srch exRcv).chState i = exRcv.chState i)) :=
  ⟨⟨by decide, by decide, by decide, Or.inl rfl⟩,
    rcv_update_srch_round_robin exRcv (by decide) (by decide) (by decide) (Or.inl rfl)⟩

/-! ## Acquisition hints -/

theorem isDonor_false_iff (ch d : Ch) :
    isDonor ch d = false ↔
      (ch.sat ≠ d.sat ∨ d.state ≠ ChState.LOCK ∨ (d.lock : ℚ) * d.T < MIN_LOCK) := by
  unfold isDonor
  simp only [Bool.and_eq_false_iff, decide_eq_false_iff_not, not_le, ne_eq]
  tauto

theorem assist_acq_loop_donor (ch : Ch) : ∀ (l : List ChTh) (d : Nat) (td : ChTh),
    l[d]? = some td → isDonor ch td.ch = true →
    (∀ (d1 : Nat) (t1 : ChTh), d1 < d → l[d1]? = some t1 → isDonor ch t1.ch = false) →
    assist_acq_loop ch l = (1, { ch with fd_ext := td.ch.fd * ch.fc / td.ch.fc }) := by
  intro l
  induction l with
  | nil => intro d td h; simp at h
  | cons x rest ih =>
    intro d td hget hdon hfirst
    unfold assist_acq_loop
    cases d with
    | zero =>
      have hx : x = td := by simpa using hget
      subst hx
      have hnot : ¬ (ch.sat ≠ x.ch.sat ∨ x.ch.state ≠ ChState.LOCK ∨
          (x.ch.lock : ℚ) * x.ch.T < MIN_LOCK) := by
        rw [← isDonor_false_iff]
        simp [hdon]
      rw [if_neg hnot]
    | succ d =>
      have hx : isDonor ch x.ch = false := hfirst 0 x (by omega) (by simp)
      rw [if_pos ((isDonor_false_iff ch x.ch).1 hx)]
      apply ih d td (by simpa using hget) hdon
      intro d1 t1 hd1 hg1
      exact hfirst (d1 + 1) t1 (by omega) (by simpa using hg1)

theorem assist_acq_loop_nodonor (ch : Ch) : ∀ (l : List ChTh),
    (∀ (d : Nat) (td : ChTh), l[d]? = some td → isDonor ch td.ch = false) →
    assist_acq_loop ch l = (0, ch) := by
  intro l
  induction l with
  | nil => intro _; rfl
  | cons x rest ih =>
    intro hno
    unfold assist_acq_loop
    rw [if_pos ((isDonor_false_iff ch x.ch).1 (hno 0 x (by simp)))]
    apply ih
    intro d td hg
    exact hno (d + 1) td (by simpa using hg)

theorem re_acq_one (rcv : Rcv) (ch : Ch) (h : (re_acq rcv ch).1 = 1) :
    (re_acq rcv ch).2.fd_ext = ch.fd := by
  unfold re_acq at h ⊢
  split at h
  · rename_i hc
    rw [if_pos hc]
  · simp at h

theorem rcv_update_srch_moved (rcv : Rcv) (r : Nat) (t t1 : ChTh) (hlo : -1 ≤ rcv.ich)
    (hpre : rcv.th[r]? = some t) (hidle : t.ch.state = ChState.IDLE)
    (hpost : (rcv_update_srch rcv).th[r]? = some t1) (hsrch : t1.ch.state = ChState.SRCH) :
    (srch_cond rcv t.ch).1 = true ∧
      t1.ch = { (srch_cond rcv t.ch).2 with state := ChState.SRCH } := by
  have hne : t1.ch.state ≠ t.ch.state := by
    rw [hidle, hsrch]
    decide
  have hsame : ∀ rcv1 : Rcv, rcv1.th = rcv.th → (rcv_update_srch rcv) = rcv1 → False := by
    intro rcv1 hth heq
    rw [heq, hth, hpre] at hpost
    have : t = t1 := by simpa using hpost
    exact hne (by rw [this])
  by_cases hb : 0 ≤ rcv.ich ∧ rcv.chState rcv.ich.toNat = some ChState.SRCH
  · exact (hsame rcv rfl (by unfold rcv_update_srch; rw [if_pos hb])).elim
  · have hupd : rcv_update_srch rcv = srch_loop rcv rcv.th.length := by
      unfold rcv_update_srch
      rw [if_neg hb]
    rw [hupd] at hpost hsame
    rcases Nat.eq_zero_or_pos rcv.th.length with h0 | hpos
    · rw [h0] at hsame
      exact (hsame rcv rfl rfl).elim
    · obtain ⟨k, hk⟩ : ∃ k, rcv.th.length = k + 1 := ⟨rcv.th.length - 1, by omega⟩
      rw [hk] at hpost hsame
      rcases srch_loop_cases rcv k hpos hlo with h | ⟨j, t0, hget, hq, h⟩
      · exact (hsame { rcv with ich := sweepIdx rcv k } rfl h).elim
      · rw [h] at hpost
        by_cases hr : r = (sweepIdx rcv j).toNat
        · subst hr
          have ht0 : t0 = t := by
            rw [hpre] at hget
            exact (Option.some.inj hget).symm
          subst ht0
          unfold Rcv.setCh at hpost
          simp only [List.getElem?_modify_eq, hpre, Option.map_some'] at hpost
          have ht1 := Option.some.inj hpost
          unfold qualifies at hq
          rw [hpre] at hq
          simp only [Bool.and_eq_true, decide_eq_true_eq] at hq
          refine ⟨hq.2, ?_⟩
          rw [← ht1]
        · exfalso
          unfold Rcv.setCh at hpost
          simp only at hpost
          rw [List.getElem?_modify_ne _ _ (Ne.symm hr), hpre] at hpost
          have : t = t1 := by simpa using hpost
          exact hne (by rw [this])

/-- C4. Acquisition hints (exact arithmetic). Whenever `rcv_update_srch` moves
an IDLE channel `r` to SEARCH: if `re_acq` fired for `r`, `fd_ext` of `r` is
afterwards `r.fd`; if `re_acq` did not fire and `d` is the donor `assist_acq`
uses (the first channel in LOCK with the same `sat` and
`lock * T >= MIN_LOCK`), `fd_ext` is afterwards `d.fd * r.fc / d.fc`; and if
`re_acq` did not fire and there is no donor, then `T <= 5 ms` holds for `r` and
`fd_ext` is left unchanged. -/
theorem acq_hint (rcv : Rcv) (r : Nat) (t : ChTh) (hlo : -1 ≤ rcv.ich)
    (hhi : rcv.ich < rcv.nch) (hpre : rcv.th[r]? = some t)
    (hidle : t.ch.state = ChState.IDLE)
    (hsrch : (rcv_update_srch rcv).chState r = some ChState.SRCH) :
    ((re_acq rcv t.ch).1 = 1 →
      ((rcv_update_srch rcv).th[r]?).map (fun x => x.ch.fd_ext) = some t.ch.fd) ∧
    ((re_acq rcv t.ch).1 = 0 → ∀ (d : Nat) (td : ChTh), rcv.th[d]? = some td →
      isDonor t.ch td.ch = true →
      (∀ (d1 : Nat) (t1 : ChTh), d1 < d → rcv.th[d1]? = some t1 → isDonor t.ch t1.ch = false) →
      ((rcv_update_srch rcv).th[r]?).map (fun x => x.ch.fd_ext) =
        some (td.ch.fd * t.ch.fc / td.ch.fc)) ∧
    ((re_acq rcv t.ch).1 = 0 →
      (∀ (d : Nat) (td : ChTh), rcv.th[d]? = some td → isDonor t.ch td.ch = false) →
      t.ch.T ≤ 5 / 1000 ∧
        ((rcv_update_srch rcv).th[r]?).map (fun x => x.ch.fd_ext) = some t.ch.fd_ext) := by
  have _ := hhi
  obtain ⟨t1, hpost, hs1⟩ : ∃ t1, (rcv_update_srch rcv).th[r]? = some t1 ∧
      t1.ch.state = ChState.SRCH := by
    unfold Rcv.chState at hsrch
    cases hg : (rcv_update_srch rcv).th[r]? with
    | none => rw [hg] at hsrch; simp at hsrch
    | some t1 =>
      rw [hg] at hsrch
      exact ⟨t1, rfl, by simpa using hsrch⟩
  obtain ⟨hc, hch⟩ := rcv_update_srch_moved rcv r t t1 hlo hpre hidle hpost hs1
  have hfd : ((rcv_update_srch rcv).th[r]?).map (fun x => x.ch.fd_ext) =
      some (srch_cond rcv t.ch).2.fd_ext := by
    rw [hpost, Option.map_some', hch]
  rw [hfd]
  refine ⟨?_, ?_, ?_⟩
  · intro h1
    unfold srch_cond
    simp only [h1, ne_eq, one_ne_zero, not_false_eq_true, if_true]
    rw [re_acq_one rcv t.ch h1]
  · intro h0 d td hget hdon hfirst
    have h2 := re_acq_zero rcv t.ch h0
    unfold srch_cond
    simp only [h0, ne_eq, not_true_eq_false, if_false, h2]
    unfold assist_acq
    rw [assist_acq_loop_donor t.ch rcv.th d td hget hdon hfirst]
    simp
  · intro h0 hno
    have h2 := re_acq_zero rcv t.ch h0
    have h3 := assist_acq_loop_nodonor t.ch rcv.th hno
    unfold srch_cond at hc ⊢
    simp only [h0, ne_eq, not_true_eq_false, if_false, h2, assist_acq, h3] at hc ⊢
    exact ⟨by simpa using hc, trivial⟩

theorem exRcvAssist_post :
    (rcv_update_srch exRcvAssist).chState 1 = some ChState.SRCH := by
  norm_num [rcv_update_srch, exRcvAssist, exRcv, exThLock, exThL2, exTh, exCh, Rcv.chState, srch_loop, Rcv.nch,
    Int.tmod, srch_cond, re_acq, assist_acq, assist_acq_loop, Rcv.setCh, MIN_LOCK, T_CYC,
    T_REACQ]
  rw [if_neg (by decide)]
  simp

/-- Witness for `acq_hint`: channel 1 of `exRcvAssist` is moved to SEARCH with
the L1 C/A channel as donor. -/
theorem acq_hint_witness :
    (-1 ≤ exRcvAssist.ich ∧ exRcvAssist.ich < exRcvAssist.nch ∧
      exRcvAssist.th[1]? = some exThL2 ∧ exThL2.ch.state = ChState.IDLE ∧
      (rcv_update_srch exRcvAssist).chState 1 = some ChState.SRCH) ∧
    (((re_acq exRcvAssist exThL2.ch).1 = 1 →
      ((rcv_update_srch exRcvAssist).th[1]?).map (fun x => x.ch.fd_ext) =
        some exThL2.ch.fd) ∧
    ((re_acq exRcvAssist exThL2.ch).1 = 0 → ∀ (d : Nat) (td : ChTh),
      exRcvAssist.th[d]? = some td → isDonor exThL2.ch td.ch = true →
      (∀ (d1 : Nat) (t1 : ChTh), d1 < d → exRcvAssist.th[d1]? = some t1 →
        isDonor exThL2.ch t1.ch = false) →
      ((rcv_update_srch exRcvAssist).th[1]?).map (fun x => x.ch.fd_ext) =
        some (td.ch.fd * exThL2.ch.fc / td.ch.fc)) ∧
    ((re_acq exRcvAssist exThL2.ch).1 = 0 →
      (∀ (d : Nat) (td : ChTh), exRcvAssist.th[d]? = some td →
        isDonor exThL2.ch td.ch = false) →
      exThL2.ch.T ≤ 5 / 1000 ∧
        ((rcv_update_srch exRcvAssist).th[1]?).map (fun x => x.ch.fd_ext) =
          some exThL2.ch.fd_ext)) :=
  ⟨⟨by decide, by decide, rfl, rfl, exRcvAssist_post⟩,
    acq_hint exRcvAssist 1 exThL2 (by decide) (by decide) rfl rfl exRcvAssist_post⟩

/-! ## Re-acquisition window -/

/-- What `re_acq` computes: it returns 1 exactly when `lock * T >= MIN_LOCK` and
`ix * T_CYC - time + T_REACQ` is not zero. -/
theorem re_acq_returns (rcv : Rcv) (ch : Ch) :
    (re_acq rcv ch).1 = 1 ↔
      (MIN_LOCK ≤ (ch.lock : ℚ) * ch.T ∧ (rcv.ix : ℚ) * T_CYC - ch.time + T_REACQ ≠ 0) := by
  unfold re_acq
  split
  · rename_i h
    simpa using h
  · rename_i h
    simp only [zero_ne_one, false_iff]
    exact h

/-- C5 (failing input). A channel with `lock * T = 5 s`, last updated at 30 s,
seen at stream time 100 s: the last update is 70 s old, more than `T_REACQ`, yet
`re_acq` returns 1 and seeds `fd_ext` with the last Doppler. -/
theorem re_acq_stale_fires :
    MIN_LOCK ≤ (exChStale.lock : ℚ) * exChStale.T ∧
      ¬ ((({ exRcv with ix := 100000 } : Rcv).ix : ℚ) * T_CYC - exChStale.time ≤ T_REACQ) ∧
      re_acq { exRcv with ix := 100000 } exChStale = (1, { exChStale with fd_ext := 1000 }) := by
  refine ⟨?_, ?_, ?_⟩
  · norm_num [exChStale, exCh, MIN_LOCK]
  · norm_num [exChStale, exCh, T_CYC, T_REACQ]
  · norm_num [re_acq, exChStale, exCh, MIN_LOCK, T_CYC, T_REACQ]

/-! ## Backpressure -/

theorem set_getElem_mono (l : List Int) (j m : Nat) (r v r1 : Int) (hj : l[j]? = some r)
    (hv : r ≤ v) (hm : (l.set j v)[m]? = some r1) : ∃ r0, l[m]? = some r0 ∧ r0 ≤ r1 := by
  rw [List.getElem?_set] at hm
  by_cases hjm : j = m
  · subst hjm
    rw [if_pos rfl] at hm
    split at hm
    · have : v = r1 := by simpa using hm
      exact ⟨r, hj, by omega⟩
    · simp at hm
  · rw [if_neg hjm] at hm
    exact ⟨r1, hm, le_refl _⟩

theorem flow_init_inv (nch : Nat) : FlowInv (Flow.init nch false) := by
  refine ⟨rfl, ?_, Or.inl ⟨rfl, rfl⟩⟩
  intro j r h
  have hmem : r ∈ List.replicate nch (0 : Int) := List.getElem?_mem h
  rw [List.eq_of_mem_replicate hmem]

theorem flow_inv_bound (s : Flow) (h : FlowInv s) : s.behind MAX_BUFF := by
  obtain ⟨_, hnn, hpc⟩ := h
  intro j r hr
  have h0 := hnn j r hr
  cases hp : s.pc with
  | read =>
    rw [hp] at hpc
    rcases hpc with ⟨_, hw⟩ | ⟨_, hb⟩
    · rw [hw]
      unfold MAX_BUFF
      omega
    · have := hb j r hr
      unfold MAX_BUFF at this ⊢
      omega
  | wait i =>
    rw [hp] at hpc
    have := hpc.2.1 j r hr
    unfold MAX_BUFF at this ⊢
    omega
  | done =>
    rw [hp] at hpc
    exact hpc j r hr

theorem flow_worker_inv (s : Flow) (j : Nat) (r v : Int) (hj : s.ix_r[j]? = some r)
    (hv : r ≤ v) (h : FlowInv s) : FlowInv { s with ix_r := s.ix_r.set j v } := by
  obtain ⟨hstd, hnn, hpc⟩ := h
  have hmono : ∀ (m : Nat) (r1 : Int), (s.ix_r.set j v)[m]? = some r1 →
      ∃ r0, s.ix_r[m]? = some r0 ∧ r0 ≤ r1 :=
    fun m r1 hm => set_getElem_mono s.ix_r j m r v r1 hj hv hm
  have hbehind : ∀ c : Int, s.behind c → ({ s with ix_r := s.ix_r.set j v } : Flow).behind c := by
    intro c hb m r1 hm
    obtain ⟨r0, h0, hle⟩ := hmono m r1 hm
    have := hb m r0 h0
    show s.ix_w + 1 - r1 < c
    omega
  refine ⟨hstd, ?_, ?_⟩
  · intro m r1 hm
    obtain ⟨r0, h0, hle⟩ := hmono m r1 hm
    have := hnn m r0 h0
    omega
  · show match s.pc with
      | Pc.read => _
      | Pc.wait i => _
      | Pc.done => _
    cases hp : s.pc with
    | read =>
      rw [hp] at hpc
      rcases hpc with h0 | ⟨h1, hb⟩
      · exact Or.inl h0
      · exact Or.inr ⟨h1, hbehind _ hb⟩
    | wait i =>
      rw [hp] at hpc
      refine ⟨hpc.1, hbehind _ hpc.2.1, ?_⟩
      intro m r1 hmi hm
      obtain ⟨r0, h0, hle⟩ := hmono m r1 hm
      have := hpc.2.2 m r0 hmi h0
      show s.ix_w + 1 - r1 < MAX_BUFF - 10
      omega
    | done =>
      rw [hp] at hpc
      exact hbehind _ hpc

theorem flow_writer_inv (s : Flow) (ev : ReadEv) (h : FlowInv s) :
    FlowInv (rcv_thread_step s ev) := by
  have hbound := flow_inv_bound s h
  obtain ⟨hstd, hnn, hpc⟩ := h
  unfold rcv_thread_step
  cases hp : s.pc with
  | read =>
    rw [hp] at hpc
    cases ev with
    | stop => exact ⟨hstd, hnn, hbound⟩
    | eof => exact ⟨hstd, hnn, hbound⟩
    | ok =>
      simp only [hstd, Bool.false_eq_true, if_false]
      refine ⟨rfl, hnn, rfl, ?_, ?_⟩
      · intro j r hr
        have h0 := hnn j r hr
        show s.ix + 1 - r < MAX_BUFF - 9
        rcases hpc with ⟨hi, _⟩ | ⟨hi, hb⟩
        · rw [hi]
          unfold MAX_BUFF
          omega
        · have := hb j r hr
          rw [hi]
          unfold MAX_BUFF at this ⊢
          omega
      · intro j r hj
        omega
  | wait i =>
    rw [hp] at hpc
    simp only
    cases hg : s.ix_r[i]? with
    | some r =>
      simp only
      split
      · exact ⟨hstd, hnn, by rw [hp]; exact hpc⟩
      · rename_i hlt
        refine ⟨hstd, hnn, hpc.1, hpc.2.1, ?_⟩
        intro j r1 hj hr1
        by_cases hji : j = i
        · subst hji
          rw [hg] at hr1
          have : r = r1 := by simpa using hr1
          subst this
          show s.ix_w + 1 - r < MAX_BUFF - 10
          omega
        · exact hpc.2.2 j r1 (by omega) hr1
    | none =>
      simp only
      refine ⟨hstd, hnn, Or.inr ⟨by show s.ix + 1 = s.ix_w + 1; rw [hpc.1], ?_⟩⟩
      intro j r hr
      have hlen : s.ix_r.length ≤ i := by
        rw [List.getElem?_eq_none_iff] at hg
        exact hg
      have hj : j < s.ix_r.length := by
        rw [List.getElem?_eq_some_iff] at hr
        exact hr.1
      exact hpc.2.2 j r (by omega) hr
  | done =>
    rw [hp] at hpc
    exact ⟨hstd, hnn, by rw [hp]; exact hpc⟩

theorem flowStep_inv (a b : Flow) (hs : FlowStep a b) (h : FlowInv a) : FlowInv b := by
  cases hs with
  | writer ev => exact flow_writer_inv a ev h
  | worker j r v hj hv => exact flow_worker_inv a j r v hj hv h

/-- C2. Backpressure invariant for file input. In the cursor system started at
`ix_w = 0` and all `ix_r = 0`, where the receiver loop publishes `ix_w <- ix`
and leaves `rcv_wait` only after seeing `ix_w + 1 - ix_r < MAX_BUFF - 10` for
each worker in turn, and a worker step only raises its own `ix_r`: in every
reachable state every worker `w` has `ix_w + 1 - w.ix_r < MAX_BUFF`. -/
theorem backpressure_invariant (nch : Nat) (s : Flow)
    (hreach : Relation.ReflTransGen FlowStep (Flow.init nch false) s) :
    ∀ (j : Nat) (r : Int), s.ix_r[j]? = some r → s.ix_w + 1 - r < MAX_BUFF := by
  have hinv : FlowInv s := by
    induction hreach with
    | refl => exact flow_init_inv nch
    | tail _ hstep ih => exact flowStep_inv _ _ hstep ih
  exact flow_inv_bound s hinv

/-- Witness for `backpressure_invariant`: two workers, after the first block
has been read. -/
theorem backpressure_invariant_witness :
    Relation.ReflTransGen FlowStep (Flow.init 2 false)
        (rcv_thread_step (Flow.init 2 false) ReadEv.ok) ∧
      ∀ (j : Nat) (r : Int),
        (rcv_thread_step (Flow.init 2 false) ReadEv.ok).ix_r[j]? = some r →
        (rcv_thread_step (Flow.init 2 false) ReadEv.ok).ix_w + 1 - r < MAX_BUFF :=
  ⟨Relation.ReflTransGen.single (FlowStep.writer _ ReadEv.ok),
    backpressure_invariant 2 _ (Relation.ReflTransGen.single (FlowStep.writer _ ReadEv.ok))⟩

/-! ## Sample decoder -/

theorem raw_loop_at (LUT : Lut) (raw : List Int) (i0 : Int) (b : Nat → Int → Cpx) (n : Nat) :
    ∀ (k : Nat) (i : Int), raw_loop LUT raw i0 n b k i =
      if (k = 0 ∨ k = 1) ∧ i0 ≤ i ∧ i < i0 + n then LUT k (u8 (raw.getD (i - i0).toNat 0))
      else b k i := by
  induction n with
  | zero =>
    intro k i
    have hc : ¬ ((k = 0 ∨ k = 1) ∧ i0 ≤ i ∧ i < i0 + ((0 : Nat) : Int)) := by
      rintro ⟨_, h1, h2⟩
      push_cast at h2
      omega
    rw [if_neg hc]
    rfl
  | succ n ih =>
    intro k i
    rw [raw_loop]
    simp only [setBuff, ih]
    by_cases h1 : k = 1 ∧ i = i0 + n
    · obtain ⟨hk, hi⟩ := h1
      subst hk hi
      have hc : ((1 = 0 ∨ 1 = 1) ∧ i0 ≤ i0 + (n : Int) ∧
          i0 + (n : Int) < i0 + ((n + 1 : Nat) : Int)) :=
        ⟨Or.inr rfl, by omega, by push_cast; omega⟩
      rw [if_pos ⟨rfl, rfl⟩, if_pos hc]
      simp
    · rw [if_neg h1]
      by_cases h0 : k = 0 ∧ i = i0 + n
      · obtain ⟨hk, hi⟩ := h0
        subst hk hi
        have hc : ((0 = 0 ∨ 0 = 1) ∧ i0 ≤ i0 + (n : Int) ∧
            i0 + (n : Int) < i0 + ((n + 1 : Nat) : Int)) :=
          ⟨Or.inl rfl, by omega, by push_cast; omega⟩
        rw [if_pos ⟨rfl, rfl⟩, if_pos hc]
        simp
      · rw [if_neg h0]
        by_cases hc : (k = 0 ∨ k = 1) ∧ i0 ≤ i ∧ i < i0 + n
        · have hc1 : (k = 0 ∨ k = 1) ∧ i0 ≤ i ∧ i < i0 + ((n + 1 : Nat) : Int) := by
            push_cast
            omega
          rw [if_pos hc, if_pos hc1]
        · have hc1 : ¬ ((k = 0 ∨ k = 1) ∧ i0 ≤ i ∧ i < i0 + ((n + 1 : Nat) : Int)) := by
            push_cast
            omega
          rw [if_neg hc, if_neg hc1]

theorem int8_I_loop_at (raw : List Int) (i0 : Int) (b : Nat → Int → Cpx) (n : Nat) :
    ∀ (k : Nat) (i : Int), int8_I_loop raw i0 n b k i =
      if k = 0 ∧ i0 ≤ i ∧ i < i0 + n then (raw.getD (i - i0).toNat 0, 0) else b k i := by
  induction n with
  | zero =>
    intro k i
    have hc : ¬ (k = 0 ∧ i0 ≤ i ∧ i < i0 + ((0 : Nat) : Int)) := by
      rintro ⟨_, h1, h2⟩
      push_cast at h2
      omega
    rw [if_neg hc]
    rfl
  | succ n ih =>
    intro k i
    rw [int8_I_loop]
    simp only [setBuff, ih]
    by_cases h0 : k = 0 ∧ i = i0 + n
    · obtain ⟨hk, hi⟩ := h0
      subst hk hi
      have hc : (0 = 0 ∧ i0 ≤ i0 + (n : Int) ∧ i0 + (n : Int) < i0 + ((n + 1 : Nat) : Int)) :=
        ⟨rfl, by omega, by push_cast; omega⟩
      rw [if_pos ⟨rfl, rfl⟩, if_pos hc]
      simp
    · rw [if_neg h0]
      by_cases hc : k = 0 ∧ i0 ≤ i ∧ i < i0 + n
      · have hc1 : k = 0 ∧ i0 ≤ i ∧ i < i0 + ((n + 1 : Nat) : Int) := by
          push_cast
          omega
        rw [if_pos hc, if_pos hc1]
      · have hc1 : ¬ (k = 0 ∧ i0 ≤ i ∧ i < i0 + ((n + 1 : Nat) : Int)) := by
          push_cast
          omega
        rw [if_neg hc, if_neg hc1]

theorem int8_IQ_loop_at (raw : List Int) (i0 : Int) (b : Nat → Int → Cpx) (n : Nat) :
    ∀ (k : Nat) (i : Int), int8_IQ_loop raw i0 n b k i =
      if k = 0 ∧ i0 ≤ i ∧ i < i0 + n then
        (raw.getD ((i - i0).toNat * 2) 0, -raw.getD ((i - i0).toNat * 2 + 1) 0)
      else b k i := by
  induction n with
  | zero =>
    intro k i
    have hc : ¬ (k = 0 ∧ i0 ≤ i ∧ i < i0 + ((0 : Nat) : Int)) := by
      rintro ⟨_, h1, h2⟩
      push_cast at h2
      omega
    rw [if_neg hc]
    rfl
  | succ n ih =>
    intro k i
    rw [int8_IQ_loop]
    simp only [setBuff, ih]
    by_cases h0 : k = 0 ∧ i = i0 + n
    · obtain ⟨hk, hi⟩ := h0
      subst hk hi
      have hc : (0 = 0 ∧ i0 ≤ i0 + (n : Int) ∧ i0 + (n : Int) < i0 + ((n + 1 : Nat) : Int)) :=
        ⟨rfl, by omega, by push_cast; omega⟩
      rw [if_pos ⟨rfl, rfl⟩, if_pos hc]
      simp
    · rw [if_neg h0]
      by_cases hc : k = 0 ∧ i0 ≤ i ∧ i < i0 + n
      · have hc1 : k = 0 ∧ i0 ≤ i ∧ i < i0 + ((n + 1 : Nat) : Int) := by
          push_cast
          omega
        rw [if_pos hc, if_pos hc1]
      · have hc1 : ¬ (k = 0 ∧ i0 ≤ i ∧ i < i0 + ((n + 1 : Nat) : Int)) := by
          push_cast
          omega
        rw [if_neg hc, if_neg hc1]

theorem u8_lt (x : Int) : u8 x < 256 := by
  unfold u8
  have h1 : 0 ≤ x % 256 := Int.emod_nonneg _ (by decide)
  have h2 : x % 256 < 256 := Int.emod_lt_of_pos _ (by decide)
  omega

theorem read_ok_N (rcv : Rcv) (LUT : Lut) (ix : Int) (fp : List Int)
    (hok : (rcv_read_data rcv LUT ix fp).1 = 1) :
    0 ≤ rcv.N ∧
      rcv.N * (if rcv.fmt = Fmt.RAW ∨ rcv.IQ0 = 1 then 1 else 2) ≤ (fp.length : Int) := by
  by_cases hfail : rcv.N < 0 ∨
      (fp.length : Int) < rcv.N * (if rcv.fmt = Fmt.RAW ∨ rcv.IQ0 = 1 then 1 else 2)
  · unfold rcv_read_data at hok
    dsimp only at hok
    rw [if_pos hfail] at hok
    simp at hok
  · push_neg at hfail
    exact hfail

theorem read_ok_fields (rcv : Rcv) (LUT : Lut) (ix : Int) (fp : List Int)
    (hok : (rcv_read_data rcv LUT ix fp).1 = 1) :
    (rcv_read_data rcv LUT ix fp).2.1.ix = ix ∧
    (rcv_read_data rcv LUT ix fp).2.1.raw =
      fp.take (rcv.N * (if rcv.fmt = Fmt.RAW ∨ rcv.IQ0 = 1 then 1 else 2)).toNat ++
        rcv.raw.drop
          (fp.take (rcv.N * (if rcv.fmt = Fmt.RAW ∨ rcv.IQ0 = 1 then 1 else 2)).toNat).length ∧
    (rcv_read_data rcv LUT ix fp).2.1.buff =
      (if rcv.fmt = Fmt.RAW then
        raw_loop (if (LUT 0 0).1 = 0 then gen_LUT rcv.IQ0 rcv.IQ1 LUT else LUT)
          (rcv_read_data rcv LUT ix fp).2.1.raw (rcv.N * Int.tmod ix MAX_BUFF) rcv.N.toNat
          rcv.buff
      else if rcv.IQ0 = 1 then
        int8_I_loop (rcv_read_data rcv LUT ix fp).2.1.raw (rcv.N * Int.tmod ix MAX_BUFF)
          rcv.N.toNat rcv.buff
      else if rcv.IQ0 = 2 then
        int8_IQ_loop (rcv_read_data rcv LUT ix fp).2.1.raw (rcv.N * Int.tmod ix MAX_BUFF)
          rcv.N.toNat rcv.buff
      else rcv.buff) := by
  obtain ⟨hN, hcnt⟩ := read_ok_N rcv LUT ix fp hok
  have hnf : ¬ (rcv.N < 0 ∨
      (fp.length : Int) < rcv.N * (if rcv.fmt = Fmt.RAW ∨ rcv.IQ0 = 1 then 1 else 2)) := by
    push_neg
    exact ⟨hN, hcnt⟩
  have hN1 : ¬ rcv.N < 0 := by omega
  unfold rcv_read_data
  dsimp only
  rw [if_neg hnf]
  simp only [if_neg hN1]
  split_ifs <;> exact ⟨rfl, rfl, rfl⟩

theorem read_raw_getD (rcv : Rcv) (LUT : Lut) (ix : Int) (fp : List Int)
    (hok : (rcv_read_data rcv LUT ix fp).1 = 1) (j : Nat)
    (hj : (j : Int) < rcv.N * (if rcv.fmt = Fmt.RAW ∨ rcv.IQ0 = 1 then 1 else 2)) :
    (rcv_read_data rcv LUT ix fp).2.1.raw.getD j 0 = fp.getD j 0 := by
  obtain ⟨_, hcnt⟩ := read_ok_N rcv LUT ix fp hok
  rw [(read_ok_fields rcv LUT ix fp hok).2.1]
  generalize rcv.N * (if rcv.fmt = Fmt.RAW ∨ rcv.IQ0 = 1 then 1 else 2) = c at hj hcnt ⊢
  have hlt : j < c.toNat := by omega
  have hlt2 : j < fp.length := by omega
  have hlt3 : j < (List.take c.toNat fp).length := by
    rw [List.length_take]
    omega
  simp only [List.getD_eq_getElem?_getD]
  rw [List.getElem?_append_left hlt3, List.getElem?_take_of_lt hlt]

theorem off_range (N ix : Int) (j : Nat) (hN : 0 ≤ N) (hj : (j : Int) < N) :
    0 ≤ N * (ix % MAX_BUFF) + j ∧ N * (ix % MAX_BUFF) + j < N * MAX_BUFF := by
  have h1 : 0 ≤ ix % MAX_BUFF := Int.emod_nonneg _ (by decide)
  have h2 : ix % MAX_BUFF < MAX_BUFF := Int.emod_lt_of_pos _ (by decide)
  have h3 : 0 ≤ N * (ix % MAX_BUFF) := Int.mul_nonneg hN h1
  have h4 : N * (ix % MAX_BUFF + 1) ≤ N * MAX_BUFF :=
    Int.mul_le_mul_of_nonneg_left (by omega) hN
  have h5 : N * (ix % MAX_BUFF + 1) = N * (ix % MAX_BUFF) + N := by ring
  constructor
  · omega
  · omega

/-- C8. Int8 decode. For a receiver in INT8 format, a tick `ix >= 0` and a
successful `rcv_read_data`, with `off = N * (ix mod MAX_BUFF)`: for `IQ[0] = 1`
each `buff[0][off+j]`, `j < N`, is `(raw[j], 0)`; for `IQ[0] = 2` it is
`(raw[2j], -raw[2j+1])` on the signed values (so a Q byte of -128 is stored as
+128); `raw` holds the values read from the stream; every written index lies
in `[0, len_buff)`; samples outside `[off, off+N)` of `buff[0]`, and all of
`buff[1]`, are unchanged; and the write cursor `ix_w` is set to `ix`. -/
theorem int8_decode (rcv : Rcv) (LUT : Lut) (ix : Int) (fp : List Int)
    (hfmt : rcv.fmt = Fmt.INT8) (hix : 0 ≤ ix) (hlen : rcv.len_buff = rcv.N * MAX_BUFF)
    (hok : (rcv_read_data rcv LUT ix fp).1 = 1) :
    (rcv.IQ0 = 1 → ∀ j : Nat, (j : Int) < rcv.N →
      (rcv_read_data rcv LUT ix fp).2.1.buff 0 (rcv.N * (ix % MAX_BUFF) + j) =
          ((rcv_read_data rcv LUT ix fp).2.1.raw.getD j 0, 0) ∧
        (rcv_read_data rcv LUT ix fp).2.1.raw.getD j 0 = fp.getD j 0) ∧
    (rcv.IQ0 = 2 → ∀ j : Nat, (j : Int) < rcv.N →
      (rcv_read_data rcv LUT ix fp).2.1.buff 0 (rcv.N * (ix % MAX_BUFF) + j) =
          ((rcv_read_data rcv LUT ix fp).2.1.raw.getD (j * 2) 0,
            -(rcv_read_data rcv LUT ix fp).2.1.raw.getD (j * 2 + 1) 0) ∧
        (rcv_read_data rcv LUT ix fp).2.1.raw.getD (j * 2) 0 = fp.getD (j * 2) 0 ∧
        (rcv_read_data rcv LUT ix fp).2.1.raw.getD (j * 2 + 1) 0 = fp.getD (j * 2 + 1) 0) ∧
    (∀ j : Nat, (j : Int) < rcv.N →
      0 ≤ rcv.N * (ix % MAX_BUFF) + j ∧ rcv.N * (ix % MAX_BUFF) + j < rcv.len_buff) ∧
    (∀ (k : Nat) (i : Int),
      (k ≠ 0 ∨ i < rcv.N * (ix % MAX_BUFF) ∨ rcv.N * (ix % MAX_BUFF) + rcv.N ≤ i) →
      (rcv_read_data rcv LUT ix fp).2.1.buff k i = rcv.buff k i) ∧
    (rcv_read_data rcv LUT ix fp).2.1.ix = ix := by
  obtain ⟨hN, _⟩ := read_ok_N rcv LUT ix fp hok
  obtain ⟨hfix, _, hbuff⟩ := read_ok_fields rcv LUT ix fp hok
  have hmod : Int.tmod ix MAX_BUFF = ix % MAX_BUFF := Int.tmod_eq_emod hix (by decide)
  have hraw : rcv.fmt ≠ Fmt.RAW := by rw [hfmt]; decide
  have hNat : ((rcv.N.toNat : Nat) : Int) = rcv.N := Int.toNat_of_nonneg hN
  rw [if_neg hraw, hmod] at hbuff
  refine ⟨?_, ?_, ?_, ?_, hfix⟩
  · intro hI j hj
    have hns : rcv.N * (if rcv.fmt = Fmt.RAW ∨ rcv.IQ0 = 1 then 1 else 2) = rcv.N := by
      rw [if_pos (Or.inr hI)]
      ring
    refine ⟨?_, read_raw_getD rcv LUT ix fp hok j (by rw [hns]; exact hj)⟩
    rw [hbuff, if_pos hI, int8_I_loop_at, if_pos ⟨rfl, by omega, by omega⟩]
    simp
  · intro hQ j hj
    have hI : ¬ rcv.IQ0 = 1 := by omega
    have hns : rcv.N * (if rcv.fmt = Fmt.RAW ∨ rcv.IQ0 = 1 then 1 else 2) = rcv.N * 2 := by
      rw [if_neg (by
        rintro (h | h)
        · exact hraw h
        · exact hI h)]
    refine ⟨?_, read_raw_getD rcv LUT ix fp hok (j * 2) (by rw [hns]; push_cast; omega),
      read_raw_getD rcv LUT ix fp hok (j * 2 + 1) (by rw [hns]; push_cast; omega)⟩
    rw [hbuff, if_neg hI, if_pos hQ, int8_IQ_loop_at, if_pos ⟨rfl, by omega, by omega⟩]
    simp
  · intro j hj
    rw [hlen]
    exact off_range rcv.N ix j hN hj
  · intro k i hout
    rw [hbuff]
    split_ifs
    · rw [int8_I_loop_at, if_neg (by omega)]
    · rw [int8_IQ_loop_at, if_neg (by omega)]
    · rfl

/-- Witness for `int8_decode`: an I/Q block whose first Q byte is -128, read at
tick 8001 (ring slot 1). -/
theorem int8_decode_witness :
    (exRcvInt8.fmt = Fmt.INT8 ∧ (0 : Int) ≤ 8001 ∧ exRcvInt8.len_buff = exRcvInt8.N * MAX_BUFF ∧
      (rcv_read_data exRcvInt8 Lut.zero 8001 [5, -128, 7, 9]).1 = 1) ∧
    ((exRcvInt8.IQ0 = 1 → ∀ j : Nat, (j : Int) < exRcvInt8.N →
      (rcv_read_data exRcvInt8 Lut.zero 8001 [5, -128, 7, 9]).2.1.buff 0
          (exRcvInt8.N * (8001 % MAX_BUFF) + j) =
          ((rcv_read_data exRcvInt8 Lut.zero 8001 [5, -128, 7, 9]).2.1.raw.getD j 0, 0) ∧
        (rcv_read_data exRcvInt8 Lut.zero 8001 [5, -128, 7, 9]).2.1.raw.getD j 0 =
          ([5, -128, 7, 9] : List Int).getD j 0) ∧
    (exRcvInt8.IQ0 = 2 → ∀ j : Nat, (j : Int) < exRcvInt8.N →
      (rcv_read_data exRcvInt8 Lut.zero 8001 [5, -128, 7, 9]).2.1.buff 0
          (exRcvInt8.N * (8001 % MAX_BUFF) + j) =
          ((rcv_read_data exRcvInt8 Lut.zero 8001 [5, -128, 7, 9]).2.1.raw.getD (j * 2) 0,
            -(rcv_read_data exRcvInt8 Lut.zero 8001 [5, -128, 7, 9]).2.1.raw.getD (j * 2 + 1) 0) ∧
        (rcv_read_data exRcvInt8 Lut.zero 8001 [5, -128, 7, 9]).2.1.raw.getD (j * 2) 0 =
          ([5, -128, 7, 9] : List Int).getD (j * 2) 0 ∧
        (rcv_read_data exRcvInt8 Lut.zero 8001 [5, -128, 7, 9]).2.1.raw.getD (j * 2 + 1) 0 =
          ([5, -128, 7, 9] : List Int).getD (j * 2 + 1) 0) ∧
    (∀ j : Nat, (j : Int) < exRcvInt8.N →
      0 ≤ exRcvInt8.N * (8001 % MAX_BUFF) + j ∧
        exRcvInt8.N * (8001 % MAX_BUFF) + j < exRcvInt8.len_buff) ∧
    (∀ (k : Nat) (i : Int),
      (k ≠ 0 ∨ i < exRcvInt8.N * (8001 % MAX_BUFF) ∨
        exRcvInt8.N * (8001 % MAX_BUFF) + exRcvInt8.N ≤ i) →
      (rcv_read_data exRcvInt8 Lut.zero 8001 [5, -128, 7, 9]).2.1.buff k i =
        exRcvInt8.buff k i) ∧
    (rcv_read_data exRcvInt8 Lut.zero 8001 [5, -128, 7, 9]).2.1.ix = 8001) :=
  ⟨⟨rfl, by decide, by decide, by decide⟩,
    int8_decode exRcvInt8 Lut.zero 8001 [5, -128, 7, 9] rfl (by decide) (by decide)
      (by decide)⟩

theorem gen_LUT_entry (IQ0 IQ1 : Int) (L : Lut) (b : Nat) (hb : b < 256) :
    gen_LUT IQ0 IQ1 L 0 b =
      ((val (b &&& 3), if IQ0 = 1 then 0 else -val ((b >>> 2) &&& 3)) : Cpx) ∧
    gen_LUT IQ0 IQ1 L 1 b =
      ((val ((b >>> 4) &&& 3), if IQ1 = 1 then 0 else -val ((b >>> 6) &&& 3)) : Cpx) := by
  unfold gen_LUT
  simp [hb]

theorem lazy_LUT (IQ0 IQ1 : Int) (LUT : Lut)
    (hlut : LUT = Lut.zero ∨ ∃ L, LUT = gen_LUT IQ0 IQ1 L) :
    ∃ L, (if (LUT 0 0).1 = 0 then gen_LUT IQ0 IQ1 LUT else LUT) = gen_LUT IQ0 IQ1 L := by
  rcases hlut with h | ⟨L, h⟩
  · subst h
    exact ⟨Lut.zero, if_pos (show (Lut.zero 0 0).1 = 0 from rfl)⟩
  · subst h
    refine ⟨L, ?_⟩
    rw [if_neg]
    rw [(gen_LUT_entry IQ0 IQ1 L 0 (by decide)).1]
    show ¬ val (0 &&& 3) = 0
    decide

/-- C6 (amended). Packed-raw decode. For a receiver in RAW format, a tick
`ix >= 0` and a successful `rcv_read_data` entered with the static table either
still zero or built by `gen_LUT` from the same IQ modes: for each `j < N`, with
`b = (uint8_t)raw[j]` and `off = N * (ix mod MAX_BUFF)`,
`buff[0][off+j] = (val[b & 3], IQ0 = 1 ? 0 : -val[(b >> 2) & 3])` and
`buff[1][off+j] = (val[(b >> 4) & 3], IQ1 = 1 ? 0 : -val[(b >> 6) & 3])`, `raw`
holds the bytes read from the stream, and the table left behind is again one
built from these IQ modes. -/
theorem raw_decode (rcv : Rcv) (LUT : Lut) (ix : Int) (fp : List Int)
    (hfmt : rcv.fmt = Fmt.RAW) (hix : 0 ≤ ix)
    (hlut : LUT = Lut.zero ∨ ∃ L, LUT = gen_LUT rcv.IQ0 rcv.IQ1 L)
    (hok : (rcv_read_data rcv LUT ix fp).1 = 1) :
    (∀ j : Nat, (j : Int) < rcv.N →
      (rcv_read_data rcv LUT ix fp).2.1.buff 0 (rcv.N * (ix % MAX_BUFF) + j) =
        ((val (u8 ((rcv_read_data rcv LUT ix fp).2.1.raw.getD j 0) &&& 3),
          if rcv.IQ0 = 1 then 0
          else -val ((u8 ((rcv_read_data rcv LUT ix fp).2.1.raw.getD j 0) >>> 2) &&& 3)) :
          Cpx) ∧
      (rcv_read_data rcv LUT ix fp).2.1.buff 1 (rcv.N * (ix % MAX_BUFF) + j) =
        ((val ((u8 ((rcv_read_data rcv LUT ix fp).2.1.raw.getD j 0) >>> 4) &&& 3),
          if rcv.IQ1 = 1 then 0
          else -val ((u8 ((rcv_read_data rcv LUT ix fp).2.1.raw.getD j 0) >>> 6) &&& 3)) :
          Cpx) ∧
      (rcv_read_data rcv LUT ix fp).2.1.raw.getD j 0 = fp.getD j 0) ∧
    ∃ L, (rcv_read_data rcv LUT ix fp).2.2.1 = gen_LUT rcv.IQ0 rcv.IQ1 L := by
  obtain ⟨hN, _⟩ := read_ok_N rcv LUT ix fp hok
  obtain ⟨_, _, hbuff⟩ := read_ok_fields rcv LUT ix fp hok
  have hmod : Int.tmod ix MAX_BUFF = ix % MAX_BUFF := Int.tmod_eq_emod hix (by decide)
  have hNat : ((rcv.N.toNat : Nat) : Int) = rcv.N := Int.toNat_of_nonneg hN
  obtain ⟨L, hL⟩ := lazy_LUT rcv.IQ0 rcv.IQ1 LUT hlut
  rw [if_pos hfmt, hmod, hL] at hbuff
  constructor
  · intro j hj
    have hns : rcv.N * (if rcv.fmt = Fmt.RAW ∨ rcv.IQ0 = 1 then 1 else 2) = rcv.N := by
      rw [if_pos (Or.inl hfmt)]
      ring
    have hidx : (rcv.N * (ix % MAX_BUFF) + (j : Int) - rcv.N * (ix % MAX_BUFF)).toNat = j := by
      omega
    refine ⟨?_, ?_, read_raw_getD rcv LUT ix fp hok j (by rw [hns]; exact hj)⟩
    · rw [hbuff, raw_loop_at, if_pos ⟨Or.inl rfl, by omega, by omega⟩, hidx]
      exact (gen_LUT_entry rcv.IQ0 rcv.IQ1 L _ (u8_lt _)).1
    · rw [hbuff, raw_loop_at, if_pos ⟨Or.inr rfl, by omega, by omega⟩, hidx]
      exact (gen_LUT_entry rcv.IQ0 rcv.IQ1 L _ (u8_lt _)).2
  · have hnf : ¬ (rcv.N < 0 ∨
        (fp.length : Int) < rcv.N * (if rcv.fmt = Fmt.RAW ∨ rcv.IQ0 = 1 then 1 else 2)) := by
      have := read_ok_N rcv LUT ix fp hok
      push_neg
      exact this
    refine ⟨L, ?_⟩
    rw [← hL]
    unfold rcv_read_data
    dsimp only
    rw [if_neg hnf, if_pos hfmt]

/-- Witness for `raw_decode`: the I/Q packed-raw receiver decoding the bytes
`0x1B` and `-1 = 0xFF` with the table not built yet. -/
theorem raw_decode_witness :
    (exRcvRawIQ.fmt = Fmt.RAW ∧ (0 : Int) ≤ 3 ∧
      (Lut.zero = Lut.zero ∨ ∃ L, Lut.zero = gen_LUT exRcvRawIQ.IQ0 exRcvRawIQ.IQ1 L) ∧
      (rcv_read_data exRcvRawIQ Lut.zero 3 [27, -1]).1 = 1) ∧
    ((∀ j : Nat, (j : Int) < exRcvRawIQ.N →
      (rcv_read_data exRcvRawIQ Lut.zero 3 [27, -1]).2.1.buff 0
          (exRcvRawIQ.N * (3 % MAX_BUFF) + j) =
        ((val (u8 ((rcv_read_data exRcvRawIQ Lut.zero 3 [27, -1]).2.1.raw.getD j 0) &&& 3),
          if exRcvRawIQ.IQ0 = 1 then 0
          else -val ((u8 ((rcv_read_data exRcvRawIQ Lut.zero 3 [27, -1]).2.1.raw.getD j 0)
            >>> 2) &&& 3)) : Cpx) ∧
      (rcv_read_data exRcvRawIQ Lut.zero 3 [27, -1]).2.1.buff 1
          (exRcvRawIQ.N * (3 % MAX_BUFF) + j) =
        ((val ((u8 ((rcv_read_data exRcvRawIQ Lut.zero 3 [27, -1]).2.1.raw.getD j 0)
            >>> 4) &&& 3),
          if exRcvRawIQ.IQ1 = 1 then 0
          else -val ((u8 ((rcv_read_data exRcvRawIQ Lut.zero 3 [27, -1]).2.1.raw.getD j 0)
            >>> 6) &&& 3)) : Cpx) ∧
      (rcv_read_data exRcvRawIQ Lut.zero 3 [27, -1]).2.1.raw.getD j 0 =
        ([27, -1] : List Int).getD j 0) ∧
    ∃ L, (rcv_read_data exRcvRawIQ Lut.zero 3 [27, -1]).2.2.1 =
      gen_LUT exRcvRawIQ.IQ0 exRcvRawIQ.IQ1 L) :=
  ⟨⟨rfl, by decide, Or.inl rfl, by decide⟩,
    raw_decode exRcvRawIQ Lut.zero 3 [27, -1] rfl (by decide) (Or.inl rfl) (by decide)⟩

/-- C6 as stated fails when the static table was built by an earlier call with
other IQ modes: after a successful call for the I/Q receiver `exRcvRawIQ`, a
successful call for the I-sampling receiver `exRcvRaw` on byte 0 stores
`(1, -1)` in `buff[0]`, not `(val[0], 0) = (1, 0)`. -/
theorem raw_decode_stale_table_counterexample :
    exRcvRaw.fmt = Fmt.RAW ∧ exRcvRaw.IQ0 = 1 ∧
      (rcv_read_data exRcvRawIQ Lut.zero 0 [0, 0]).1 = 1 ∧
      (rcv_read_data exRcvRaw (rcv_read_data exRcvRawIQ Lut.zero 0 [0, 0]).2.2.1 1 [0, 0]).1 = 1 ∧
      (rcv_read_data exRcvRaw (rcv_read_data exRcvRawIQ Lut.zero 0 [0, 0]).2.2.1 1
          [0, 0]).2.1.buff 0 (exRcvRaw.N * (1 % MAX_BUFF) + 0) = (1, -1) ∧
      (rcv_read_data exRcvRaw (rcv_read_data exRcvRawIQ Lut.zero 0 [0, 0]).2.2.1 1
          [0, 0]).2.1.buff 0 (exRcvRaw.N * (1 % MAX_BUFF) + 0) ≠
        ((val (u8 0 &&& 3), if exRcvRaw.IQ0 = 1 then 0 else -val ((u8 0 >>> 2) &&& 3)) : Cpx) := by
  decide

/-! ## Look-up table round trip -/

theorem val_code_val (k : Nat) (hk : k < 4) : val_code (val k) = some k := by
  interval_cases k <;> rfl

theorem val_code_neg_neg_val (k : Nat) (hk : k < 4) : val_code (- -val k) = some k := by
  interval_cases k <;> rfl

set_option maxRecDepth 100000 in
theorem pack_fields : ∀ b : Nat, b < 256 →
    (b &&& 3) ||| (((b >>> 2) &&& 3) <<< 2) ||| (((b >>> 4) &&& 3) <<< 4) |||
      (((b >>> 6) &&& 3) <<< 6) = b := by
  decide

theorem and3_lt (n : Nat) : n &&& 3 < 4 := by
  have := @Nat.and_le_right n 3
  omega

/-- C7 (amended). Look-up table round trip. For every byte `b` and IQ modes:
re-encoding `I` of front-end 0 and of front-end 1 as produced by `gen_LUT`
yields bits 1:0 and 5:4 of `b`; for a front-end whose mode is not I-sampling,
re-encoding `-Q` yields its Q bits (3:2, resp. 7:6), so when neither front-end
is I-sampling re-encoding and packing yields `b` exactly; for an I-sampling
front-end the stored Q is 0, which is no level of the table, and the Q bits
are not recovered. -/
theorem lut_round_trip (b : Nat) (IQ0 IQ1 : Int) (L : Lut) (hb : b < 256) :
    val_code (gen_LUT IQ0 IQ1 L 0 b).1 = some (b &&& 3) ∧
    val_code (gen_LUT IQ0 IQ1 L 1 b).1 = some ((b >>> 4) &&& 3) ∧
    (IQ0 ≠ 1 → val_code (-(gen_LUT IQ0 IQ1 L 0 b).2) = some ((b >>> 2) &&& 3)) ∧
    (IQ1 ≠ 1 → val_code (-(gen_LUT IQ0 IQ1 L 1 b).2) = some ((b >>> 6) &&& 3)) ∧
    (IQ0 ≠ 1 → IQ1 ≠ 1 →
      reencode (gen_LUT IQ0 IQ1 L 0 b) (gen_LUT IQ0 IQ1 L 1 b) = some b) ∧
    (IQ0 = 1 → val_code (-(gen_LUT IQ0 IQ1 L 0 b).2) = none) ∧
    (IQ1 = 1 → val_code (-(gen_LUT IQ0 IQ1 L 1 b).2) = none) ∧
    (IQ0 = 1 ∨ IQ1 = 1 →
      reencode (gen_LUT IQ0 IQ1 L 0 b) (gen_LUT IQ0 IQ1 L 1 b) = none) := by
  obtain ⟨h0, h1⟩ := gen_LUT_entry IQ0 IQ1 L b hb
  have hI0 : val_code (gen_LUT IQ0 IQ1 L 0 b).1 = some (b &&& 3) := by
    rw [h0]
    exact val_code_val _ (and3_lt _)
  have hI1 : val_code (gen_LUT IQ0 IQ1 L 1 b).1 = some ((b >>> 4) &&& 3) := by
    rw [h1]
    exact val_code_val _ (and3_lt _)
  have hQ0 : IQ0 ≠ 1 → val_code (-(gen_LUT IQ0 IQ1 L 0 b).2) = some ((b >>> 2) &&& 3) := by
    intro h
    rw [h0]
    simp only [if_neg h]
    exact val_code_neg_neg_val _ (and3_lt _)
  have hQ1 : IQ1 ≠ 1 → val_code (-(gen_LUT IQ0 IQ1 L 1 b).2) = some ((b >>> 6) &&& 3) := by
    intro h
    rw [h1]
    simp only [if_neg h]
    exact val_code_neg_neg_val _ (and3_lt _)
  have hZ0 : IQ0 = 1 → val_code (-(gen_LUT IQ0 IQ1 L 0 b).2) = none := by
    intro h
    rw [h0]
    simp only [if_pos h]
    rfl
  have hZ1 : IQ1 = 1 → val_code (-(gen_LUT IQ0 IQ1 L 1 b).2) = none := by
    intro h
    rw [h1]
    simp only [if_pos h]
    rfl
  refine ⟨hI0, hI1, hQ0, hQ1, ?_, hZ0, hZ1, ?_⟩
  · intro g0 g1
    unfold reencode
    rw [hI0, hQ0 g0, hI1, hQ1 g1]
    simp only
    rw [pack_fields b hb]
  · intro g
    unfold reencode
    rcases g with g | g
    · rw [hI0, hZ0 g]
    · rw [hI0, hI1, hZ1 g]
      cases val_code (-(gen_LUT IQ0 IQ1 L 0 b).2) <;> rfl

/-- Witness for `lut_round_trip`: byte `0x1B`. -/
theorem lut_round_trip_witness :
    (27 < 256) ∧
    (val_code (gen_LUT 2 2 Lut.zero 0 27).1 = some (27 &&& 3) ∧
    val_code (gen_LUT 2 2 Lut.zero 1 27).1 = some ((27 >>> 4) &&& 3) ∧
    ((2 : Int) ≠ 1 → val_code (-(gen_LUT 2 2 Lut.zero 0 27).2) = some ((27 >>> 2) &&& 3)) ∧
    ((2 : Int) ≠ 1 → val_code (-(gen_LUT 2 2 Lut.zero 1 27).2) = some ((27 >>> 6) &&& 3)) ∧
    ((2 : Int) ≠ 1 → (2 : Int) ≠ 1 →
      reencode (gen_LUT 2 2 Lut.zero 0 27) (gen_LUT 2 2 Lut.zero 1 27) = some 27) ∧
    ((2 : Int) = 1 → val_code (-(gen_LUT 2 2 Lut.zero 0 27).2) = none) ∧
    ((2 : Int) = 1 → val_code (-(gen_LUT 2 2 Lut.zero 1 27).2) = none) ∧
    ((2 : Int) = 1 ∨ (2 : Int) = 1 →
      reencode (gen_LUT 2 2 Lut.zero 0 27) (gen_LUT 2 2 Lut.zero 1 27) = none)) :=
  ⟨by decide, lut_round_trip 27 2 2 Lut.zero (by decide)⟩

/-- C7 as stated fails for an I-sampling front-end: with IQ modes `(1, 2)` the
bytes 4 and 0 get the same two `(I, Q)` pairs from `gen_LUT`, and re-encoding
the pairs of byte 4 does not yield 4. -/
theorem lut_round_trip_counterexample :
    (4 < 256) ∧
      gen_LUT 1 2 Lut.zero 0 4 = gen_LUT 1 2 Lut.zero 0 0 ∧
      gen_LUT 1 2 Lut.zero 1 4 = gen_LUT 1 2 Lut.zero 1 0 ∧
      reencode (gen_LUT 1 2 Lut.zero 0 4) (gen_LUT 1 2 Lut.zero 1 4) ≠ some 4 := by
  decide

/-! ## Reader window -/

theorem run_step_inv (th : ChTh) (rcv : Rcv) (kern : Int → ChState) (s : ThRun)
    (seen : List Int) (w : Int) (hn : 1 ≤ ch_n th rcv)
    (h : RunInv (ch_n th rcv) rcv s seen) :
    RunInv (ch_n th rcv) rcv (ch_thread_step th rcv kern s w) (seen ++ [w]) := by
  obtain ⟨hdvd, hix, hr, hrb, hcalls⟩ := h
  unfold ch_thread_step
  simp only
  split
  · rename_i hc
    refine ⟨Dvd.dvd.add hdvd (dvd_refl _), by show 0 ≤ s.ix + ch_n th rcv; omega, hix,
      Or.inr ⟨w, by simp, hc⟩, ?_⟩
    intro c hcmem
    rw [List.mem_append, List.mem_singleton] at hcmem
    rcases hcmem with hold | hnew
    · obtain ⟨h1, h2, h3, h4, h5, h6⟩ := hcalls c hold
      exact ⟨h1, h2, h3, h4, h5, List.mem_append_left _ h6⟩
    · subst hnew
      refine ⟨hdvd, hix, hc, by show s.ix + ch_n th rcv ≤ w; omega, ?_, by simp⟩
      show rcv.N * Int.tmod s.ix MAX_BUFF = rcv.N * (s.ix % MAX_BUFF)
      rw [Int.tmod_eq_emod hix (by decide)]
  · refine ⟨hdvd, hix, hr, ?_, ?_⟩
    · rcases hrb with h0 | ⟨v, hv, hb⟩
      · exact Or.inl h0
      · exact Or.inr ⟨v, List.mem_append_left _ hv, hb⟩
    · intro c hcmem
      obtain ⟨h1, h2, h3, h4, h5, h6⟩ := hcalls c hcmem
      exact ⟨h1, h2, h3, h4, h5, List.mem_append_left _ h6⟩

theorem run_fold_inv (th : ChTh) (rcv : Rcv) (kern : Int → ChState) (hn : 1 ≤ ch_n th rcv) :
    ∀ (obs : List Int) (s : ThRun) (seen : List Int), RunInv (ch_n th rcv) rcv s seen →
      RunInv (ch_n th rcv) rcv (obs.foldl (ch_thread_step th rcv kern) s) (seen ++ obs) := by
  intro obs
  induction obs with
  | nil =>
    intro s seen h
    simpa using h
  | cons w rest ih =>
    intro s seen h
    have h1 := ih (ch_thread_step th rcv kern s w) (seen ++ [w])
      (run_step_inv th rcv kern s seen w hn h)
    simpa using h1

theorem run_init_inv (th : ChTh) (rcv : Rcv) (hix : th.ix = 0) :
    RunInv (ch_n th rcv) rcv { ix := 0, ix_r := th.ix, calls := [], log := [] } [] := by
  refine ⟨dvd_zero _, le_refl _, by simp [hix], Or.inl hix, ?_⟩
  intro c hc
  simp at hc

/-- C9. Reader window safety. For a worker with `n = ch.N / rcv.N >= 1` whose
read pointer starts at 0 and any non-decreasing sequence of non-negative values
it reads from the write cursor `ix_w`: every call of the DSP kernel by
`ch_thread` is at a cursor `ix` that is a non-negative multiple of `n` with
`ix + 2n <= ix_w + 1` for the value `ix_w` just read, so `ix + n <= ix_w` (the
cycles `ix .. ix + n` are published), the offset passed is
`N * (ix mod MAX_BUFF)`, and the published read pointer satisfies
`0 <= ix_r <= ix_w + 1` for the last value read. -/
theorem reader_window_safety (th : ChTh) (rcv : Rcv) (kern : Int → ChState) (pre : List Int)
    (w : Int) (hn : 1 ≤ ch_n th rcv) (hix : th.ix = 0)
    (hsorted : (pre ++ [w]).Pairwise (fun a b => a ≤ b))
    (hnn : ∀ v ∈ pre ++ [w], 0 ≤ v) :
    (∀ c ∈ (ch_thread th rcv kern (pre ++ [w])).calls,
      ch_n th rcv ∣ c.ix ∧ 0 ≤ c.ix ∧ c.ix + 2 * ch_n th rcv ≤ c.ix_w + 1 ∧
        c.ix + ch_n th rcv ≤ c.ix_w ∧ c.off = rcv.N * (c.ix % MAX_BUFF) ∧
        c.ix_w ∈ pre ++ [w]) ∧
    0 ≤ (ch_thread th rcv kern (pre ++ [w])).ix_r ∧
    (ch_thread th rcv kern (pre ++ [w])).ix_r ≤ w + 1 := by
  have hinv := run_fold_inv th rcv kern hn (pre ++ [w]) _ [] (run_init_inv th rcv hix)
  rw [List.nil_append] at hinv
  obtain ⟨_, _, hr, hrb, hcalls⟩ := hinv
  have hle : ∀ v ∈ pre ++ [w], v ≤ w := by
    intro v hv
    rw [List.mem_append, List.mem_singleton] at hv
    rcases hv with hp | rfl
    · exact (List.pairwise_append.1 hsorted).2.2 v hp w (by simp)
    · exact le_refl _
  refine ⟨hcalls, hr, ?_⟩
  rcases hrb with h0 | ⟨v, hv, hb⟩
  · have := hnn w (by simp)
    show (ch_thread th rcv kern (pre ++ [w])).ix_r ≤ w + 1
    unfold ch_thread
    omega
  · have := hle v hv
    show (ch_thread th rcv kern (pre ++ [w])).ix_r ≤ w + 1
    unfold ch_thread
    omega

/-- Witness for `reader_window_safety`: a 4 ms channel reading the write
cursor values 3, 7, 12. -/
theorem reader_window_safety_witness :
    (1 ≤ ch_n exTh4 exRcv ∧ exTh4.ix = 0 ∧
      (([3, 7] : List Int) ++ [12]).Pairwise (fun a b => a ≤ b) ∧
      ∀ v ∈ ([3, 7] : List Int) ++ [12], 0 ≤ v) ∧
    ((∀ c ∈ (ch_thread exTh4 exRcv (fun _ => ChState.LOCK) ([3, 7] ++ [12])).calls,
      ch_n exTh4 exRcv ∣ c.ix ∧ 0 ≤ c.ix ∧ c.ix + 2 * ch_n exTh4 exRcv ≤ c.ix_w + 1 ∧
        c.ix + ch_n exTh4 exRcv ≤ c.ix_w ∧ c.off = exRcv.N * (c.ix % MAX_BUFF) ∧
        c.ix_w ∈ ([3, 7] : List Int) ++ [12]) ∧
    0 ≤ (ch_thread exTh4 exRcv (fun _ => ChState.LOCK) ([3, 7] ++ [12])).ix_r ∧
    (ch_thread exTh4 exRcv (fun _ => ChState.LOCK) ([3, 7] ++ [12])).ix_r ≤ 12 + 1) :=
  ⟨⟨by decide, rfl, by decide, by decide⟩,
    reader_window_safety exTh4 exRcv (fun _ => ChState.LOCK) [3, 7] 12 (by decide) rfl
      (by decide) (by decide)⟩

/-! ## Log cadence -/

theorem dvd_window (n a t : Int) (ha : n ∣ a) (ht : n ∣ t) (h1 : a ≤ t) (h2 : t < a + n) :
    t = a := by
  have hd : n ∣ t - a := dvd_sub ht ha
  have hz : (t - a) % n = 0 := Int.emod_eq_zero_of_dvd hd
  have hs : (t - a) % n = t - a := Int.emod_eq_of_lt (by omega) (by omega)
  omega

theorem chlog_step_inv (th : ChTh) (rcv : Rcv) (kern : Int → ChState) (s : ThRun) (w : Int)
    (hn : 1 ≤ ch_n th rcv) (hlock : ∀ ix, kern ix = ChState.LOCK)
    (h : ChLogInv (ch_n th rcv) s) :
    ChLogInv (ch_n th rcv) (ch_thread_step th rcv kern s w) := by
  obtain ⟨hdvd, hix, hnd, hmem⟩ := h
  have hmod : Int.tmod s.ix LOG_CYC = s.ix % LOG_CYC := Int.tmod_eq_emod hix (by decide)
  have hnot : s.ix ∉ s.log := by
    intro hin
    have := (hmem s.ix).1 hin
    omega
  unfold ch_thread_step
  simp only [hlock, true_and, hmod]
  split
  · refine ⟨Dvd.dvd.add hdvd (dvd_refl _), by show 0 ≤ s.ix + ch_n th rcv; omega, ?_, ?_⟩
    · show (if s.ix % LOG_CYC = 0 then s.log ++ [s.ix] else s.log).Nodup
      split
      · rw [List.nodup_append]
        refine ⟨hnd, List.nodup_singleton _, ?_⟩
        intro a ha1 ha2
        rw [List.mem_singleton] at ha2
        subst ha2
        exact hnot ha1
      · exact hnd
    · intro t
      show t ∈ (if s.ix % LOG_CYC = 0 then s.log ++ [s.ix] else s.log) ↔
        (0 ≤ t ∧ t < s.ix + ch_n th rcv ∧ ch_n th rcv ∣ t ∧ t % LOG_CYC = 0)
      have hold := hmem t
      split
      · rename_i hz
        rw [List.mem_append, List.mem_singleton, hold]
        constructor
        · rintro (⟨g1, g2, g3, g4⟩ | rfl)
          · exact ⟨g1, by omega, g3, g4⟩
          · exact ⟨hix, by omega, hdvd, hz⟩
        · rintro ⟨g1, g2, g3, g4⟩
          by_cases hlt : t < s.ix
          · exact Or.inl ⟨g1, hlt, g3, g4⟩
          · exact Or.inr (dvd_window _ _ _ hdvd g3 (by omega) g2)
      · rename_i hz
        rw [hold]
        constructor
        · rintro ⟨g1, g2, g3, g4⟩
          exact ⟨g1, by omega, g3, g4⟩
        · rintro ⟨g1, g2, g3, g4⟩
          by_cases hlt : t < s.ix
          · exact ⟨g1, hlt, g3, g4⟩
          · have := dvd_window _ _ _ hdvd g3 (by omega) g2
            subst this
            exact absurd g4 hz
  · exact ⟨hdvd, hix, hnd, hmem⟩

theorem chlog_fold_inv (th : ChTh) (rcv : Rcv) (kern : Int → ChState)
    (hn : 1 ≤ ch_n th rcv) (hlock : ∀ ix, kern ix = ChState.LOCK) :
    ∀ (obs : List Int) (s : ThRun), ChLogInv (ch_n th rcv) s →
      ChLogInv (ch_n th rcv) (obs.foldl (ch_thread_step th rcv kern) s) := by
  intro obs
  induction obs with
  | nil => intro s h; exact h
  | cons w rest ih =>
    intro s h
    exact ih _ (chlog_step_inv th rcv kern s w hn hlock h)

theorem chlog_run (th : ChTh) (rcv : Rcv) (kern : Int → ChState) (obs : List Int)
    (hn : 1 ≤ ch_n th rcv) (hlock : ∀ ix, kern ix = ChState.LOCK) :
    ChLogInv (ch_n th rcv) (ch_thread th rcv kern obs) := by
  apply chlog_fold_inv th rcv kern hn hlock
  refine ⟨dvd_zero _, le_refl _, List.nodup_nil, ?_⟩
  intro t
  constructor
  · intro h
    simp at h
  · rintro ⟨g1, g2, _, _⟩
    have : t < 0 := g2
    omega

theorem timelog_append (s : Flow) (hix : 0 ≤ s.ix) (hnd : s.time_log.Nodup)
    (hsound : ∀ t ∈ s.time_log, 0 ≤ t ∧ t % LOG_CYC = 0 ∧ t ≤ s.ix)
    (hcompl : ∀ t : Int, 0 ≤ t → t < s.ix → t % LOG_CYC = 0 → t ∈ s.time_log)
    (hlt : ∀ t ∈ s.time_log, t < s.ix) :
    (if Int.tmod s.ix LOG_CYC = 0 then s.time_log ++ [s.ix] else s.time_log).Nodup ∧
    (∀ t ∈ (if Int.tmod s.ix LOG_CYC = 0 then s.time_log ++ [s.ix] else s.time_log),
      0 ≤ t ∧ t % LOG_CYC = 0 ∧ t ≤ s.ix) ∧
    (∀ t : Int, 0 ≤ t → t < s.ix + 1 → t % LOG_CYC = 0 →
      t ∈ (if Int.tmod s.ix LOG_CYC = 0 then s.time_log ++ [s.ix] else s.time_log)) := by
  have hmod : Int.tmod s.ix LOG_CYC = s.ix % LOG_CYC := Int.tmod_eq_emod hix (by decide)
  rw [hmod]
  split
  · rename_i hz
    refine ⟨?_, ?_, ?_⟩
    · rw [List.nodup_append]
      refine ⟨hnd, List.nodup_singleton _, ?_⟩
      intro a ha1 ha2
      rw [List.mem_singleton] at ha2
      have := hlt a ha1
      omega
    · intro t ht
      rw [List.mem_append, List.mem_singleton] at ht
      rcases ht with h | rfl
      · exact hsound t h
      · exact ⟨hix, hz, le_refl _⟩
    · intro t h0 h1 h2
      rw [List.mem_append, List.mem_singleton]
      by_cases hlt1 : t < s.ix
      · exact Or.inl (hcompl t h0 hlt1 h2)
      · exact Or.inr (by omega)
  · rename_i hz
    refine ⟨hnd, hsound, ?_⟩
    intro t h0 h1 h2
    by_cases hlt1 : t < s.ix
    · exact hcompl t h0 hlt1 h2
    · have : t = s.ix := by omega
      subst this
      exact absurd h2 hz

theorem timelog_writer_inv (s : Flow) (ev : ReadEv) (h : TimeLogInv s) :
    TimeLogInv (rcv_thread_step s ev) := by
  obtain ⟨hix, hnd, hsound, hcompl, hpc⟩ := h
  unfold rcv_thread_step
  cases hp : s.pc with
  | read =>
    rw [hp] at hpc
    obtain ⟨a1, a2, a3⟩ := timelog_append s hix hnd hsound hcompl hpc
    cases ev with
    | stop => exact ⟨hix, hnd, hsound, hcompl, trivial⟩
    | eof =>
      refine ⟨hix, a1, a2, ?_, trivial⟩
      intro t h0 h1 h2
      exact a3 t h0 (by show t < s.ix + 1; have : t < s.ix := h1; omega) h2
    | ok =>
      simp only
      split
      · refine ⟨by show 0 ≤ s.ix + 1; omega, a1, ?_, a3, ?_⟩
        · intro t ht
          obtain ⟨g1, g2, g3⟩ := a2 t ht
          exact ⟨g1, g2, by show t ≤ s.ix + 1; omega⟩
        · intro t ht
          obtain ⟨g1, g2, g3⟩ := a2 t ht
          show t < s.ix + 1
          omega
      · refine ⟨hix, a1, a2, ?_, ?_⟩
        · intro t h0 h1 h2
          exact a3 t h0 (by show t < s.ix + 1; have : t < s.ix := h1; omega) h2
        · intro hz
          exact a3 s.ix hix (by omega) hz
  | wait i =>
    rw [hp] at hpc
    simp only
    cases hg : s.ix_r[i]? with
    | some r =>
      simp only
      split
      · exact ⟨hix, hnd, hsound, hcompl, by rw [hp]; exact hpc⟩
      · exact ⟨hix, hnd, hsound, hcompl, hpc⟩
    | none =>
      simp only
      refine ⟨by show 0 ≤ s.ix + 1; omega, hnd, ?_, ?_, ?_⟩
      · intro t ht
        obtain ⟨g1, g2, g3⟩ := hsound t ht
        exact ⟨g1, g2, by show t ≤ s.ix + 1; omega⟩
      · intro t h0 h1 h2
        have h1a : t < s.ix + 1 := h1
        by_cases hlt1 : t < s.ix
        · exact hcompl t h0 hlt1 h2
        · have : t = s.ix := by omega
          subst this
          exact hpc h2
      · intro t ht
        obtain ⟨g1, g2, g3⟩ := hsound t ht
        show t < s.ix + 1
        omega
  | done =>
    exact ⟨hix, hnd, hsound, hcompl, by rw [hp]; trivial⟩

theorem timelog_step_inv (a b : Flow) (hs : FlowStep a b) (h : TimeLogInv a) :
    TimeLogInv b := by
  cases hs with
  | writer ev => exact timelog_writer_inv a ev h
  | worker j r v hj hv => exact h

theorem timelog_init_inv (nch : Nat) (isStdin : Bool) :
    TimeLogInv (Flow.init nch isStdin) := by
  refine ⟨le_refl _, List.nodup_nil, ?_, ?_, ?_⟩
  · intro t ht
    simp [Flow.init] at ht
  · intro t h0 h1
    have : t < 0 := h1
    omega
  · intro t ht
    simp [Flow.init] at ht

theorem timelog_reach (nch : Nat) (isStdin : Bool) (s : Flow)
    (hreach : Relation.ReflTransGen FlowStep (Flow.init nch isStdin) s) : TimeLogInv s := by
  induction hreach with
  | refl => exact timelog_init_inv nch isStdin
  | tail _ hstep ih => exact timelog_step_inv _ _ hstep ih

/-- C10 (amended). Log cadence. In every reachable state of the receiver loop
each tick `t` already run has exactly one `$TIME` record if `t mod 1000 = 0` and
none otherwise. For a channel with `n = ch.N / rcv.N >= 1` that stays in LOCK,
the worker has written exactly one `$CH` record for each cursor
`t < ix` that is a multiple of both `n` and 1000, and no other; when `n` divides
1000 these are exactly the multiples of 1000 among the ticks processed. -/
theorem log_cadence (nch : Nat) (isStdin : Bool) (s : Flow) (th : ChTh) (rcv : Rcv)
    (kern : Int → ChState) (obs : List Int)
    (hreach : Relation.ReflTransGen FlowStep (Flow.init nch isStdin) s)
    (hn : 1 ≤ ch_n th rcv) (hlock : ∀ ix, kern ix = ChState.LOCK) :
    (s.time_log.Nodup ∧
      ∀ t : Int, 0 ≤ t → t < s.ix → (t ∈ s.time_log ↔ t % LOG_CYC = 0)) ∧
    ((ch_thread th rcv kern obs).log.Nodup ∧
      ∀ t : Int, t ∈ (ch_thread th rcv kern obs).log ↔
        (0 ≤ t ∧ t < (ch_thread th rcv kern obs).ix ∧ ch_n th rcv ∣ t ∧ t % LOG_CYC = 0)) ∧
    (ch_n th rcv ∣ LOG_CYC → ∀ t : Int, 0 ≤ t → t < (ch_thread th rcv kern obs).ix →
      (t ∈ (ch_thread th rcv kern obs).log ↔ t % LOG_CYC = 0)) := by
  obtain ⟨_, hnd, hsound, hcompl, _⟩ := timelog_reach nch isStdin s hreach
  obtain ⟨_, _, hnd2, hmem⟩ := chlog_run th rcv kern obs hn hlock
  refine ⟨⟨hnd, ?_⟩, ⟨hnd2, hmem⟩, ?_⟩
  · intro t h0 h1
    exact ⟨fun h => (hsound t h).2.1, fun h => hcompl t h0 h1 h⟩
  · intro hdiv t h0 h1
    rw [hmem t]
    constructor
    · rintro ⟨_, _, _, g⟩
      exact g
    · intro g
      exact ⟨h0, h1, dvd_trans hdiv (Int.dvd_of_emod_eq_zero g), g⟩

/-- Witness for `log_cadence`: a file receiver after its first block, and a
4 ms channel in LOCK that has read the write cursor values 7 and 12. -/
theorem log_cadence_witness :
    (Relation.ReflTransGen FlowStep (Flow.init 2 false)
        (rcv_thread_step (Flow.init 2 false) ReadEv.ok) ∧
      1 ≤ ch_n exTh4 exRcv ∧ ∀ ix : Int, (fun _ => ChState.LOCK) ix = ChState.LOCK) ∧
    (((rcv_thread_step (Flow.init 2 false) ReadEv.ok).time_log.Nodup ∧
      ∀ t : Int, 0 ≤ t → t < (rcv_thread_step (Flow.init 2 false) ReadEv.ok).ix →
        (t ∈ (rcv_thread_step (Flow.init 2 false) ReadEv.ok).time_log ↔ t % LOG_CYC = 0)) ∧
    ((ch_thread exTh4 exRcv (fun _ => ChState.LOCK) [7, 12]).log.Nodup ∧
      ∀ t : Int, t ∈ (ch_thread exTh4 exRcv (fun _ => ChState.LOCK) [7, 12]).log ↔
        (0 ≤ t ∧ t < (ch_thread exTh4 exRcv (fun _ => ChState.LOCK) [7, 12]).ix ∧
          ch_n exTh4 exRcv ∣ t ∧ t % LOG_CYC = 0)) ∧
    (ch_n exTh4 exRcv ∣ LOG_CYC → ∀ t : Int, 0 ≤ t →
      t < (ch_thread exTh4 exRcv (fun _ => ChState.LOCK) [7, 12]).ix →
      (t ∈ (ch_thread exTh4 exRcv (fun _ => ChState.LOCK) [7, 12]).log ↔
        t % LOG_CYC = 0))) :=
  ⟨⟨Relation.ReflTransGen.single (FlowStep.writer _ ReadEv.ok), by decide, fun _ => rfl⟩,
    log_cadence 2 false _ exTh4 exRcv (fun _ => ChState.LOCK) [7, 12]
      (Relation.ReflTransGen.single (FlowStep.writer _ ReadEv.ok)) (by decide)
      (fun _ => rfl)⟩

theorem exTh3_n : ch_n exTh3 exRcv = 3 := by decide

theorem exTh3_steady (kern : Int → ChState) (W : Int) : ∀ (k : Nat) (s : ThRun),
    s.ix + 3 * (k + 1) ≤ W + 1 →
    ((List.replicate k W).foldl (ch_thread_step exTh3 exRcv kern) s).ix = s.ix + 3 * k := by
  intro k
  induction k with
  | zero =>
    intro s _
    simp
  | succ k ih =>
    intro s h
    have hstep : (ch_thread_step exTh3 exRcv kern s W).ix = s.ix + 3 := by
      unfold ch_thread_step
      simp only [exTh3_n]
      rw [if_pos (by push_cast at h; omega)]
    rw [List.replicate_succ, List.foldl_cons, ih _ (by rw [hstep]; push_cast at h ⊢; omega),
      hstep]
    push_cast
    ring

/-- C10 as stated fails when `n` does not divide 1000: a channel with
`n = 3` cycles per integration that stays in LOCK and has processed the ticks
below 1005 has written no `$CH` record for tick 1000. -/
theorem ch_log_cadence_counterexample :
    1 ≤ ch_n exTh3 exRcv ∧ (1000 : Int) % LOG_CYC = 0 ∧
      (ch_thread exTh3 exRcv (fun _ => ChState.LOCK) (List.replicate 335 2000)).ix = 1005 ∧
      (1000 : Int) ∉
        (ch_thread exTh3 exRcv (fun _ => ChState.LOCK) (List.replicate 335 2000)).log := by
  refine ⟨by decide, by decide, ?_, ?_⟩
  · unfold ch_thread
    rw [exTh3_steady (fun _ => ChState.LOCK) 2000 335 _ (by norm_num)]
    norm_num
  · intro hmem
    have hinv := chlog_run exTh3 exRcv (fun _ => ChState.LOCK) (List.replicate 335 2000)
      (by decide) (fun _ => rfl)
    have h3 := ((hinv.2.2.2 1000).1 hmem).2.2.1
    rw [exTh3_n] at h3
    omega

/-! ## One scheduler step -/

theorem ch_with_srch (c d : Ch) (e : c = { d with fd_ext := c.fd_ext }) :
    ({ c with state := ChState.SRCH } : Ch) =
      { d with state := ChState.SRCH, fd_ext := c.fd_ext } := by
  cases c
  simp only [Ch.mk.injEq] at e
  obtain ⟨_, h2, h3, h4, h5, h6, h7, h8, _⟩ := e
  simp only [Ch.mk.injEq, true_and, and_true]
  exact ⟨h2, h3, h4, h5, h6, h7, h8⟩

theorem rcv_update_srch_shape (rcv : Rcv) (hlo : -1 ≤ rcv.ich) :
    (rcv_update_srch rcv).th = rcv.th ∨
    ∃ (i : Nat) (t : ChTh) (x : ℚ), rcv.th[i]? = some t ∧ t.ch.state = ChState.IDLE ∧
      (rcv_update_srch rcv).th =
        rcv.th.modify
          (fun u => { u with ch := { t.ch with state := ChState.SRCH, fd_ext := x } }) i := by
  unfold rcv_update_srch
  split
  · exact Or.inl rfl
  · rcases Nat.eq_zero_or_pos rcv.th.length with h0 | hpos
    · rw [h0]
      exact Or.inl rfl
    · obtain ⟨k, hk⟩ : ∃ k, rcv.th.length = k + 1 := ⟨rcv.th.length - 1, by omega⟩
      rw [hk]
      rcases srch_loop_cases rcv k hpos hlo with h | ⟨j, t, hget, hq, h⟩
      · rw [h]
        exact Or.inl rfl
      · right
        have hidle : t.ch.state = ChState.IDLE := by
          unfold qualifies at hq
          rw [hget] at hq
          simp only [Bool.and_eq_true, decide_eq_true_eq] at hq
          exact hq.1
        refine ⟨(sweepIdx rcv j).toNat, t, (srch_cond rcv t.ch).2.fd_ext, hget, hidle, ?_⟩
        rw [h]
        unfold Rcv.setCh
        simp only
        rw [ch_with_srch _ t.ch (srch_cond_snd rcv t.ch)]

theorem exRcv_srchInv : SrchInv exRcv := by
  refine ⟨by decide, by decide, ?_⟩
  intro i _
  rcases i with _ | _ | i <;> simp [Rcv.chState, exRcv, exTh, exCh]

/-- C11. One scheduler step. For a receiver state with `ich` in `[-1, nch)` in
which no channel other than channel `ich` is in SEARCH: after one call of
`rcv_update_srch` no channel other than the new channel `ich` is in SEARCH and
`ich` is in `[-1, nch)`; the channel count is unchanged; at most one channel
has its state changed, and that change is IDLE to SEARCH; `fd_ext` differs
afterwards only for a channel that this call moved from IDLE to SEARCH; and
when channel `ich` is in SEARCH at entry the call changes nothing. -/
theorem rcv_update_srch_step (rcv : Rcv) (hinv : SrchInv rcv) :
    SrchInv (rcv_update_srch rcv) ∧
    (rcv_update_srch rcv).th.length = rcv.th.length ∧
    (∀ i j : Nat, (rcv_update_srch rcv).chState i ≠ rcv.chState i →
      (rcv_update_srch rcv).chState j ≠ rcv.chState j → i = j) ∧
    (∀ i : Nat, (rcv_update_srch rcv).chState i ≠ rcv.chState i →
      rcv.chState i = some ChState.IDLE ∧
        (rcv_update_srch rcv).chState i = some ChState.SRCH) ∧
    (∀ (i : Nat) (t t1 : ChTh), rcv.th[i]? = some t → (rcv_update_srch rcv).th[i]? = some t1 →
      t1.ch.fd_ext ≠ t.ch.fd_ext →
      t.ch.state = ChState.IDLE ∧ t1.ch.state = ChState.SRCH) ∧
    (0 ≤ rcv.ich → rcv.chState rcv.ich.toNat = some ChState.SRCH →
      rcv_update_srch rcv = rcv) := by
  refine ⟨rcv_update_srch_inv rcv hinv, rcv_update_srch_length rcv, ?_, ?_, ?_, ?_⟩
  · intro i j hi hj
    rcases rcv_update_srch_shape rcv hinv.1 with h | ⟨m, t, x, _, _, h⟩
    · exact absurd (by unfold Rcv.chState; rw [h]) hi
    · have hne : ∀ a : Nat, (rcv_update_srch rcv).chState a ≠ rcv.chState a → a = m := by
        intro a ha
        by_contra hcon
        apply ha
        unfold Rcv.chState
        rw [h, List.getElem?_modify_ne _ _ (Ne.symm hcon)]
      rw [hne i hi, hne j hj]
  · intro i hi
    rcases rcv_update_srch_shape rcv hinv.1 with h | ⟨m, t, x, hget, hidle, h⟩
    · exact absurd (by unfold Rcv.chState; rw [h]) hi
    · have him : i = m := by
        by_contra hcon
        apply hi
        unfold Rcv.chState
        rw [h, List.getElem?_modify_ne _ _ (Ne.symm hcon)]
      subst him
      constructor
      · unfold Rcv.chState
        rw [hget]
        simp [hidle]
      · unfold Rcv.chState
        rw [h, List.getElem?_modify_eq, hget]
        rfl
  · intro i t t1 hpre hpost hfd
    rcases rcv_update_srch_shape rcv hinv.1 with h | ⟨m, u, x, hget, hidle, h⟩
    · rw [h, hpre] at hpost
      have : t = t1 := Option.some.inj hpost
      exact absurd (by rw [this]) hfd
    · by_cases him : i = m
      · subst him
        rw [hpre] at hget
        have hu : t = u := Option.some.inj hget
        subst hu
        rw [h, List.getElem?_modify_eq, hpre] at hpost
        have ht1 := Option.some.inj hpost
        refine ⟨hidle, ?_⟩
        rw [← ht1]
      · rw [h, List.getElem?_modify_ne _ _ (Ne.symm him), hpre] at hpost
        have : t = t1 := Option.some.inj hpost
        exact absurd (by rw [this]) hfd
  · intro h0 hs
    unfold rcv_update_srch
    rw [if_pos ⟨h0, hs⟩]

/-- Witness for `rcv_update_srch_step`: the two-channel receiver as
constructed. -/
theorem rcv_update_srch_step_witness :
    SrchInv exRcv ∧
    (SrchInv (rcv_update_srch exRcv) ∧
    (rcv_update_srch exRcv).th.length = exRcv.th.length ∧
    (∀ i j : Nat, (rcv_update_srch exRcv).chState i ≠ exRcv.chState i →
      (rcv_update_srch exRcv).chState j ≠ exRcv.chState j → i = j) ∧
    (∀ i : Nat, (rcv_update_srch exRcv).chState i ≠ exRcv.chState i →
      exRcv.chState i = some ChState.IDLE ∧
        (rcv_update_srch exRcv).chState i = some ChState.SRCH) ∧
    (∀ (i : Nat) (t t1 : ChTh), exRcv.th[i]? = some t →
      (rcv_update_srch exRcv).th[i]? = some t1 → t1.ch.fd_ext ≠ t.ch.fd_ext →
      t.ch.state = ChState.IDLE ∧ t1.ch.state = ChState.SRCH) ∧
    (0 ≤ exRcv.ich → exRcv.chState exRcv.ich.toNat = some ChState.SRCH →
      rcv_update_srch exRcv = exRcv)) :=
  ⟨exRcv_srchInv, rcv_update_srch_step exRcv exRcv_srchInv⟩

end PocketSDR
